import Mathlib

/-!
Verification of the Docker image build orchestrator of the dsutil repository
(src/dsutil/docker/builder.py and src/dsutil/docker/docker.py).

The Python code is shallowly embedded: pure helpers become Lean functions,
the stateful graph builder becomes explicit state passing over a first-order
state record, external effects (git clone, git diff, the Docker engine) are
abstracted into oracle functions carried by a World record, and Python
exceptions become Except values.  The while-loop of get_deps is modelled
with explicit fuel (a Python non-terminating walk corresponds to running out
of fuel, returning none).
-/

namespace Dsutil

/-- One build unit, mirroring the frozen dataclass Node of builder.py:
a pair of a git URL and a branch name.  Python equality and hashing of the
dataclass compare the field tuple. -/
structure Node where
  git_url : String
  branch : String
deriving DecidableEq, Repr

/-- Mirror of tag_date in builder.py: suffix a tag with the current date
string (the strftime result, passed here explicitly as mmddhh).  For the
empty tag and the latest tag the result is the bare date string. -/
def tag_date (mmddhh : String) (tag : String) : String :=
  if tag = "" ∨ tag = "latest" then mmddhh else tag ++ "_" ++ mmddhh

/-- Mirror of branch_to_tag in builder.py: master and main map to latest,
dev maps to next, any other branch maps to itself. -/
def branch_to_tag (branch : String) : String :=
  if branch = "master" ∨ branch = "main" then "latest"
  else if branch = "dev" then "next"
  else branch

/-- Python equality between a (str, str) tuple and a Node dataclass
instance, as evaluated by the expression
(obj.git_url_base, obj.branch) in repo_branch
of DockerImage.get_deps when repo_branch holds Node objects (the caller
passes self.graph.nodes).  tuple.eq returns NotImplemented for a non-tuple
operand; the reflected dataclass eq checks that the classes are identical
and returns NotImplemented for a tuple; Python then falls back to identity
comparison of distinct objects, which is False.  Hence the comparison is
False for every tuple and every Node. -/
def pyEqTupleNode (_t : String × String) (_n : Node) : Bool := false

/-- Membership of a (str, str) tuple in a collection of Node objects under
Python semantics (hash lookup followed by pyEqTupleNode). -/
def tupleMemNodes (t : String × String) (nodes : List Node) : Bool :=
  nodes.any (pyEqTupleNode t)

/-- The external world of the builder: the clone-path cache, the git-diff
oracle used by compare_git_branches (true means the diff is empty), and the
parsed upstream source URL (the value of the GIT: directive) seen for each
(git URL, branch) pair after clone_repo and parse_dockerfile. -/
structure World where
  pathOf : String → String
  diffEmpty : String → String → String → Bool
  baseUrl : String → String → String

/-- The base DockerImage of a node, as built by DockerImage.base_image:
the declared upstream URL with the same requested branch. -/
def baseNode (w : World) (n : Node) : Node :=
  { git_url := w.baseUrl n.git_url n.branch, branch := n.branch }

/-- Mirror of DockerImage.get_deps of builder.py, with fuel for the while
loop.  deps starts as the singleton of self; while the (base URL, branch)
tuple is not a member of repo_branch, the walk stops on an empty base URL,
otherwise moves to the base image and prepends it.  The returned list is
ordered from the top of the walk down to the requested leaf. -/
def get_deps (w : World) (repoBranch : List Node) : Nat → Node → Option (List Node)
  | 0, _ => none
  | fuel + 1, n =>
    if tupleMemNodes (w.baseUrl n.git_url n.branch, n.branch) repoBranch then
      some [n]
    else if w.baseUrl n.git_url n.branch = "" then
      some [n]
    else
      match get_deps w repoBranch fuel (baseNode w n) with
      | none => none
      | some l => some (l ++ [n])

/-- A node is a root image when its declared upstream source URL is empty,
mirroring DockerImage.is_root. -/
def is_root (w : World) (n : Node) : Bool :=
  w.baseUrl n.git_url n.branch = ""

/-- The three fields extracted from a Dockerfile by
DockerImage.parse_dockerfile: the image name from the NAME directive, the
base image from the FROM line, and the upstream source URL from the GIT
directive. -/
structure ParsedDockerfile where
  name : String
  base_image : String
  git_url_base : String
deriving DecidableEq, Repr

/-- Python str.startswith: the characters of the pattern are an initial
segment of the characters of the line. -/
def pyStartsWith (l p : String) : Bool :=
  l.toList.take p.toList.length = p.toList

/-- Python str.strip with no argument: remove leading and trailing
whitespace characters. -/
def pyStrip (s : String) : String :=
  String.mk (((s.toList.dropWhile Char.isWhitespace).reverse.dropWhile
    Char.isWhitespace).reverse)

/-- Python membership of a character in a string. -/
def pyContains (s : String) (c : Char) : Bool :=
  s.toList.contains c

/-- One line of the parsing loop of DockerImage.parse_dockerfile in
builder.py: a NAME directive sets the name, a FROM line sets the base image
(appending :latest when the value has no colon), a GIT directive sets the
upstream URL; later occurrences overwrite earlier ones. -/
def parseLine (acc : ParsedDockerfile) (line : String) : ParsedDockerfile :=
  if pyStartsWith line "# NAME:" then
    { acc with name := pyStrip (line.drop 7) }
  else if pyStartsWith line "FROM " then
    let b := pyStrip (line.drop 5)
    { acc with base_image := if pyContains b ':' then b else b ++ ":latest" }
  else if pyStartsWith line "# GIT:" then
    { acc with git_url_base := pyStrip (line.drop 6) }
  else
    acc

/-- The accumulated fields after scanning all lines, starting from the empty
fields set in DockerImage.init. -/
def scanDockerfile (lines : List String) : ParsedDockerfile :=
  lines.foldl parseLine { name := "", base_image := "", git_url_base := "" }

/-- Mirror of DockerImage.parse_dockerfile of builder.py: scan the lines,
then raise LookupError when the resulting name is empty, then raise
LookupError when the resulting base image is empty; otherwise the parsed
descriptor is returned. -/
def parse_dockerfile (lines : List String) : Except String ParsedDockerfile :=
  if (scanDockerfile lines).name = "" then
    .error "The name tag # NAME: is not found in the Dockerfile!"
  else if (scanDockerfile lines).base_image = "" then
    .error "The FROM line is not found in the Dockerfile!"
  else
    .ok (scanDockerfile lines)

/-- The mutable state of DockerImageBuilder that graph construction touches:
the networkx graph (nodes in insertion order, directed edges in insertion
order), the identical_branches node attribute, the per-repository node index
repo_nodes, and the set of roots.  Python dicts and networkx adjacency keep
insertion order, so ordered lists model them faithfully; the
identical_branches sets are modelled as duplicate-free lists in insertion
order. -/
structure BuilderState where
  graphNodes : List Node
  graphEdges : List (Node × Node)
  identBr : List (Node × List String)
  repoNodes : List (String × List Node)
  roots : List Node
deriving DecidableEq, Repr

/-- The builder state before build_graph runs. -/
def emptyState : BuilderState :=
  { graphNodes := [], graphEdges := [], identBr := [], repoNodes := [], roots := [] }

/-- Lookup in a string-keyed association list (a Python dict, which has one
entry per key, in insertion order), with the empty list as default. -/
def repoFind (l : List (String × List Node)) (u : String) : List Node :=
  match l with
  | [] => []
  | p :: rest => if p.1 = u then p.2 else repoFind rest u

/-- setdefault followed by append on a string-keyed association list:
append to the entry of the key when present, otherwise add a fresh entry. -/
def repoAppend (l : List (String × List Node)) (u : String) (n : Node) :
    List (String × List Node) :=
  match l with
  | [] => [(u, [n])]
  | p :: rest =>
    if p.1 = u then (p.1, p.2 ++ [n]) :: rest else p :: repoAppend rest u n

/-- The list of nodes recorded for a repository URL in repo_nodes
(repo_nodes.get(url, [])). -/
def lookupRepo (st : BuilderState) (url : String) : List Node :=
  repoFind st.repoNodes url

/-- repo_nodes.setdefault(url, []) followed by repo_nodes[url].append(n). -/
def appendRepo (st : BuilderState) (url : String) (n : Node) : BuilderState :=
  { st with repoNodes := repoAppend st.repoNodes url n }

/-- Lookup in the node-keyed attribute association list, with the empty set
as default. -/
def ibFind (l : List (Node × List String)) (n : Node) : List String :=
  match l with
  | [] => []
  | p :: rest => if p.1 = n then p.2 else ibFind rest n

/-- set.add on the identical_branches attribute of a node: a no-op when
the branch is already a member, appending otherwise. -/
def ibAdd (l : List (Node × List String)) (n : Node) (b : String) :
    List (Node × List String) :=
  match l with
  | [] => [(n, [b])]
  | p :: rest =>
    if p.1 = n then
      (if b ∈ p.2 then p :: rest else (p.1, p.2 ++ [b]) :: rest)
    else p :: ibAdd rest n b

/-- The identical_branches attribute of a node, defaulting to the empty
set, mirroring get_identical_branches. -/
def ibLookup (st : BuilderState) (n : Node) : List String :=
  ibFind st.identBr n

/-- Record branch into the identical_branches set of a node
(set.add: a no-op when the branch is already a member). -/
def ibInsert (st : BuilderState) (n : Node) (b : String) : BuilderState :=
  { st with identBr := ibAdd st.identBr n b }

/-- Mirror of add_identical_branch of builder.py: record branch as
identical to the node unless it is the primary branch of the node itself. -/
def add_identical_branch (st : BuilderState) (n : Node) (b : String) : BuilderState :=
  if n.branch = b then st else ibInsert st n b

/-- networkx graph.add_node: append the node unless it is already a vertex. -/
def graphAddNode (st : BuilderState) (n : Node) : BuilderState :=
  if n ∈ st.graphNodes then st else { st with graphNodes := st.graphNodes ++ [n] }

/-- networkx graph.add_edge: insert both endpoints when missing, then the
edge unless it is already present. -/
def graphAddEdge (st : BuilderState) (a b : Node) : BuilderState :=
  if (a, b) ∈ (graphAddNode (graphAddNode st a) b).graphEdges
  then graphAddNode (graphAddNode st a) b
  else { graphAddNode (graphAddNode st a) b with
         graphEdges := (graphAddNode (graphAddNode st a) b).graphEdges ++ [(a, b)] }

/-- The predecessors of a node in insertion order, as iterated by
graph.predecessors. -/
def preds (st : BuilderState) (n : Node) : List Node :=
  (st.graphEdges.filter (fun e => e.2 = n)).map (fun e => e.1)

/-- next(graph.predecessors(n)): the first predecessor when one exists;
none models the StopIteration raised on an empty iterator. -/
def firstPred (st : BuilderState) (n : Node) : Option Node :=
  (preds st n).head?

/-- Mirror of compare_git_branches of builder.py: two branch names are
identical when they are equal, otherwise when the git diff of the two
branches (excluding the test and tests directories) is empty. -/
def compare_git_branches (w : World) (path b1 b2 : String) : Bool :=
  b1 = b2 || w.diffEmpty path b1 b2

/-- Mirror of find_identical_node of builder.py: scan the nodes recorded
for the repository of the candidate, returning the first whose branch has
no content difference with the candidate branch; none when the list is
empty or no branch matches. -/
def find_identical_node (w : World) (st : BuilderState) (n : Node) : Option Node :=
  if (lookupRepo st n.git_url).isEmpty then none
  else (lookupRepo st n.git_url).find?
    (fun m => compare_git_branches w (w.pathOf n.git_url) m.branch n.branch)

/-- Mirror of add_root_node of builder.py: reuse the first content-identical
recorded node when one exists (recording the new branch as identical),
otherwise insert the node as a fresh vertex, index it in repo_nodes and add
it to the roots. -/
def add_root_node (w : World) (st : BuilderState) (n : Node) : BuilderState × Node :=
  match find_identical_node w st n with
  | none =>
    ({ appendRepo (graphAddNode st n) n.git_url n with
       roots := (appendRepo (graphAddNode st n) n.git_url n).roots ++ [n] }, n)
  | some i =>
    (add_identical_branch st i n.branch, i)

/-- The exceptions that can escape graph construction: the StopIteration of
next(graph.predecessors(...)) on an empty iterator, the AssertionError of
build_graph_branch, and fuel exhaustion standing for a non-terminating
lineage walk. -/
inductive BuildErr where
  | stopIteration
  | assertionError
  | outOfFuel
deriving DecidableEq, Repr

/-- Mirror of add_edge of builder.py.  When node2 has no content-identical
recorded node, insert the edge (creating node2 as a vertex) and index node2
in repo_nodes.  When an identical node exists, Python first evaluates
next(graph.predecessors(inode2)), raising StopIteration when inode2 has no
predecessor; when the first predecessor differs from node1 the edge
node1 to node2 is inserted without indexing node2; otherwise inode2 is
reused and the branch of node2 recorded as identical to it. -/
def add_edge (w : World) (st : BuilderState) (node1 node2 : Node) :
    Except BuildErr (BuilderState × Node) :=
  match find_identical_node w st node2 with
  | none =>
    .ok (appendRepo (graphAddEdge st node1 node2) node2.git_url node2, node2)
  | some inode2 =>
    match firstPred st inode2 with
    | none => .error .stopIteration
    | some p =>
      if p ≠ node1 then
        .ok (graphAddEdge st node1 node2, node2)
      else
        .ok (add_identical_branch st inode2 node2.branch, inode2)

/-- The edge-adding fold of build_graph_branch over the tail of a lineage:
each dependency is attached below the node returned for the previous one. -/
def foldDeps (w : World) : List Node → BuilderState → Node →
    Except BuildErr (BuilderState × Node)
  | [], st, prev => .ok (st, prev)
  | dep :: rest, st, prev =>
    match add_edge w st prev dep with
    | .error e => .error e
    | .ok (st', prev') => foldDeps w rest st' prev'

/-- Mirror of build_graph_branch of builder.py for one requested URL: run
get_deps against the current graph vertices, then anchor the head of the
chain (as a root when it has no upstream, otherwise on the vertex found for
its base, asserting that the vertex is in the graph), then fold add_edge
over the rest of the chain. -/
def processUrl (w : World) (fuel : Nat) (branch url : String) (st : BuilderState) :
    Except BuildErr BuilderState :=
  match get_deps w st.graphNodes fuel { git_url := url, branch := branch } with
  | none => .error .outOfFuel
  | some [] => .error .assertionError
  | some (dep0 :: rest) =>
    if is_root w dep0 then
      (foldDeps w rest (add_root_node w st dep0).1 (add_root_node w st dep0).2).map
        (fun r => r.1)
    else
      match find_identical_node w st (baseNode w dep0) with
      | none => .error .assertionError
      | some prev0 =>
        if prev0 ∈ st.graphNodes then
          match add_edge w st prev0 dep0 with
          | .error e => .error e
          | .ok (st1, _) =>
            -- Python discards the value of this add_edge call, so the fold
            -- continues from the node found for the base, not from dep0.
            (foldDeps w rest st1 prev0).map (fun r => r.1)
        else .error .assertionError

/-! ## The push and pull retry wrappers of docker.py -/

/-- One invocation of the wrapped registry operation: success (with the
measured seconds), a subprocess CalledProcessError (the transient kind the
wrapper catches), or any other raised error. -/
inductive PushOutcome where
  | ok (seconds : Nat)
  | transient
  | fatal
deriving DecidableEq, Repr

/-- The errors a registry operation can raise. -/
inductive PushErr where
  | calledProcessError
  | otherError
deriving DecidableEq, Repr

/-- Propagating the outcome of one invocation unmodified. -/
def outcomeResult : PushOutcome → Except PushErr Nat
  | .ok s => .ok s
  | .transient => .error .calledProcessError
  | .fatal => .error .otherError

/-- The retry loop of push_image and pull_image of docker.py: the i-th
invocation of the operation is op i.  With r loop iterations left, a
success returns, a CalledProcessError is caught followed by one sleep of
the backoff duration, and any other error propagates; after the loop one
final unguarded invocation runs and its outcome propagates unmodified.
The result triple is (number of invocations, number of sleeps, propagated
outcome). -/
def pushLoop (op : Nat → PushOutcome) : Nat → Nat → Nat × Nat × Except PushErr Nat
  | i, 0 => (1, 0, outcomeResult (op i))
  | i, r + 1 =>
    match op i with
    | .ok s => (1, 0, .ok s)
    | .transient =>
      let (c, sl, res) := pushLoop op (i + 1) r
      (c + 1, sl + 1, res)
    | .fatal => (1, 0, .error .otherError)

/-- Mirror of push_image of docker.py over an abstract operation: when the
retry count is at most one the operation runs exactly once and its outcome
propagates; otherwise the loop runs retry times followed by the final
unguarded invocation. -/
def push_image (op : Nat → PushOutcome) (retry : Int) : Nat × Nat × Except PushErr Nat :=
  if retry ≤ 1 then (1, 0, outcomeResult (op 0))
  else pushLoop op 0 retry.toNat

/-- Mirror of pull_image of docker.py, whose retry structure is identical
to push_image line by line. -/
def pull_image (op : Nat → PushOutcome) (retry : Int) : Nat × Nat × Except PushErr Nat :=
  if retry ≤ 1 then (1, 0, outcomeResult (op 0))
  else pushLoop op 0 retry.toNat

/-! ## Tagging after a successful build -/

/-- Mirror of tag_image_1 of builder.py: tag the image and append the
(tag, action, seconds) row recorded for the new tag. -/
def tag_image_1 (tag_new : String) (action_time : List (String × String × Nat)) :
    List (String × String × Nat) :=
  action_time ++ [(tag_new, "tag", 0)]

/-- Mirror of tag_image of builder.py: after a successful build with the
given tag, append the date-suffixed historical tag, then for every branch
in the identical_branches attribute append that branch's mapped tag
followed by the mapped tag's date-suffixed variant. -/
def tag_image (mmddhh : String) (identical_branches : List String) (tag : String)
    (action_time : List (String × String × Nat)) : List (String × String × Nat) :=
  let a1 := tag_image_1 (tag_date mmddhh tag) action_time
  identical_branches.foldl
    (fun acc br => tag_image_1 (tag_date mmddhh (branch_to_tag br))
      (tag_image_1 (branch_to_tag br) acc)) a1

/-! ## The build traversal of DockerImageBuilder.build_images -/

/-- The DockerAction namedtuple returned by DockerImage.build. -/
structure DAction where
  succeed : Bool
  err_msg : String
  image : String
  tag : String
  action : String
  seconds : Nat
deriving DecidableEq, Repr

/-- The node attributes written by build_image_node. -/
structure NodeBuildAttr where
  build_succeed : Bool
  build_err_msg : String
  image_name : String
  action_time : List (String × String × Nat)
deriving DecidableEq, Repr

/-- The traversal state: the per-node build attributes (absent for a node
the traversal never reached) and the failures list of the builder. -/
structure TState where
  attr : List (Node × NodeBuildAttr)
  failures : List Node
deriving DecidableEq, Repr

/-- The traversal environment: the graph edges and identical_branches
attribute fixed by graph construction, the outcome of DockerImage.build for
each node (the image engine abstracted as an oracle), the push flag, the
date string, and the measured push durations. -/
structure BuildEnv where
  edges : List (Node × Node)
  identBr : List (Node × List String)
  builds : Node → DAction
  push : Bool
  mmddhh : String
  pushSeconds : String → Nat

/-- The identical_branches attribute used by the traversal (read from the
graph built during construction). -/
def ibLookupE (env : BuildEnv) (n : Node) : List String :=
  ibFind env.identBr n

/-- The successors of a node in edge insertion order, as iterated by
graph.successors. -/
def successors (env : BuildEnv) (n : Node) : List Node :=
  (env.edges.filter (fun e => e.1 = n)).map (fun e => e.2)

/-- Lookup in the node-keyed build-attribute association list. -/
def attrFind (l : List (Node × NodeBuildAttr)) (n : Node) : Option NodeBuildAttr :=
  match l with
  | [] => none
  | p :: rest => if p.1 = n then some p.2 else attrFind rest n

/-- Assignment into the node-keyed build-attribute association list,
overwriting a previous entry for the node. -/
def attrSet (l : List (Node × NodeBuildAttr)) (n : Node) (a : NodeBuildAttr) :
    List (Node × NodeBuildAttr) :=
  match l with
  | [] => [(n, a)]
  | p :: rest => if p.1 = n then (n, a) :: rest else p :: attrSet rest n a

/-- The build attributes recorded for a node, when the traversal reached
it. -/
def attrLookup (ts : TState) (n : Node) : Option NodeBuildAttr :=
  attrFind ts.attr n

/-- Write the build attributes of a node (overwriting previous ones, as
assignment into the networkx attribute dict does). -/
def attrWrite (ts : TState) (n : Node) (a : NodeBuildAttr) : TState :=
  { ts with attr := attrSet ts.attr n a }

/-- Mirror of push_images of builder.py: one push per action row present
when the pushes start, each appending its timing row. -/
def push_images (env : BuildEnv) (action_time : List (String × String × Nat)) :
    List (String × String × Nat) :=
  action_time ++ action_time.map (fun r => (r.1, "push", env.pushSeconds r.1))

/-- The node attributes build_image_node records for a node: the outcome
fields of DockerImage.build, and on success the action rows accumulated by
tagging (and, when pushing is enabled, pushing). -/
def recordOf (env : BuildEnv) (n : Node) : NodeBuildAttr :=
  if (env.builds n).succeed then
    { build_succeed := true, build_err_msg := (env.builds n).err_msg,
      image_name := (env.builds n).image,
      action_time :=
        if env.push then
          push_images env (tag_image env.mmddhh (ibLookupE env n) (env.builds n).tag
            [((env.builds n).tag, (env.builds n).action, (env.builds n).seconds)])
        else
          tag_image env.mmddhh (ibLookupE env n) (env.builds n).tag
            [((env.builds n).tag, (env.builds n).action, (env.builds n).seconds)] }
  else
    { build_succeed := false, build_err_msg := (env.builds n).err_msg,
      image_name := (env.builds n).image,
      action_time := [((env.builds n).tag, (env.builds n).action, (env.builds n).seconds)] }

/-- Mirror of build_image_node of builder.py: build the image, record the
outcome into the node attributes, and on success tag (and, when pushing is
enabled, push) the image, the extra action rows accumulating into the
action_time attribute. -/
def build_image_node (env : BuildEnv) (n : Node) (ts : TState) : TState :=
  attrWrite ts n (recordOf env n)

/-- The sequential traversal of a list of nodes by a node-traversal
function (the loop over roots of build_images, and the loop over
successors of build_images_graph); none propagates fuel exhaustion. -/
def travListWith (rec : Node → TState → Option TState) :
    List Node → TState → Option TState
  | [], ts => some ts
  | n :: rest, ts =>
    match rec n ts with
    | none => none
    | some t => travListWith rec rest t

/-- Mirror of build_images_graph of builder.py: build the node; on failure
append it to the failures list and return without touching its subtree;
on success recurse into the successors.  Fuel bounds the recursion depth
(the Python recursion terminates because the built graph is acyclic). -/
def travNode (env : BuildEnv) : Nat → Node → TState → Option TState
  | 0 => fun _ _ => none
  | fuel + 1 => fun n ts =>
    if (env.builds n).succeed then
      travListWith (travNode env fuel) (successors env n) (build_image_node env n ts)
    else
      some { build_image_node env n ts with
             failures := (build_image_node env n ts).failures ++ [n] }

/-- The traversal of a list of nodes with the given fuel per node. -/
def travList (env : BuildEnv) (fuel : Nat) : List Node → TState → Option TState :=
  travListWith (travNode env fuel)

/-- The string form of a Node (Node.__str__ of builder.py): the URL after
its second-to-last separator, then the branch in angle brackets.  rindex
raises ValueError when the character is absent, modelled by none. -/
def strRIndexLt (cs : List Char) (c : Char) (stop : Nat) : Option Nat :=
  ((List.range stop).filter (fun i => cs.get? i = some c)).getLast?

/-- Node.__str__: take the last slash of the URL, then the previous slash
(HTTP URLs) or, failing that, the previous colon (SSH URLs, where rindex
raises when absent), and keep everything after it, appending the branch in
angle brackets. -/
def nodeStr (n : Node) : Option String :=
  let cs := n.git_url.toList
  match strRIndexLt cs '/' cs.length with
  | none => none
  | some rindex =>
    let index? :=
      match strRIndexLt cs '/' rindex with
      | some i => some i
      | none => strRIndexLt cs ':' rindex
    index?.map (fun i => String.mk (cs.drop (i + 1)) ++ "<" ++ n.branch ++ ">")

/-- The rendering of the identical_branches set inside build_error_msg
(Python renders list(set) with quote marks around each name and in
unspecified set order; the quote marks are omitted here and insertion order
is used). -/
def brListRepr (brs : List String) : String :=
  "[" ++ String.intercalate ", " brs ++ "]"

/-- One line of build_error_msg for a failed node: its string form, its
identical_branches, and its recorded build error message; none when
rendering the node raises. -/
def failureLine (env : BuildEnv) (ts : TState) (n : Node) : Option String :=
  match nodeStr n, attrLookup ts n with
  | some s, some a =>
    some (s ++ " " ++ brListRepr (ibLookupE env n) ++ ":\n" ++ a.build_err_msg)
  | _, _ => none

/-- Mirror of build_error_msg of builder.py: the header line followed by
one line per failed node; none when rendering any failed node raises. -/
def build_error_msg (env : BuildEnv) (ts : TState) : Option String :=
  (ts.failures.mapM (failureLine env ts)).map
    (fun lines =>
      "Failed to build Docker images corresponding to the following nodes:\n"
        ++ String.intercalate "\n" lines)

/-- What a run of build_images can surface: the aggregate
DockerImageBuilderError, or an error raised while rendering the aggregate
message (the ValueError of Node.__str__ or a missing attribute). -/
inductive DriverErr where
  | builderError (msg : String)
  | renderError
deriving DecidableEq, Repr

/-- Mirror of build_images of builder.py after graph construction: traverse
every root; afterwards raise the aggregate error when the failures list is
non-empty, otherwise return normally with the recorded state.  none stands
for fuel exhaustion of the modelled recursion. -/
def build_images (env : BuildEnv) (fuel : Nat) (roots : List Node) :
    Option (Except DriverErr TState) :=
  match travList env fuel roots { attr := [], failures := [] } with
  | none => none
  | some ts =>
    if ts.failures.isEmpty then some (.ok ts)
    else
      match build_error_msg env ts with
      | some m => some (.error (.builderError m))
      | none => some (.error .renderError)

/-- The nodes the traversal attempts: every root, and every child of an
attempted node whose build succeeded. -/
inductive Attempted (env : BuildEnv) (roots : List Node) : Node → Prop
  | root (n : Node) : n ∈ roots → Attempted env roots n
  | step (p c : Node) : Attempted env roots p → (env.builds p).succeed = true →
      (p, c) ∈ env.edges → Attempted env roots c

/-! ## Machinery for later-operations reasoning on the construction state -/

/-- The graph-construction calls that can touch the builder state after a
given point: add_root_node and add_edge invocations. -/
inductive BOp where
  | addRoot (n : Node)
  | addE (a b : Node)
deriving DecidableEq, Repr

/-- Apply one construction call; a raising add_edge leaves the state as it
was at the raise (no mutation precedes the raise). -/
def applyOp (w : World) (st : BuilderState) : BOp → BuilderState
  | .addRoot n => (add_root_node w st n).1
  | .addE a b =>
    match add_edge w st a b with
    | .ok (st', _) => st'
    | .error _ => st

/-- Apply a sequence of construction calls. -/
def applyOps (w : World) (st : BuilderState) : List BOp → BuilderState
  | [] => st
  | op :: rest => applyOps w (applyOp w st op) rest

/-- One construction state extends another: the per-repository index lists
and the edge list only grow at the end, vertices are never removed, and
identical_branches sets only grow.  Every construction call produces an
extension of its input state. -/
structure Ext (s S : BuilderState) : Prop where
  repo : ∀ u, ∃ ex, lookupRepo S u = lookupRepo s u ++ ex
  edges : ∃ ex, S.graphEdges = s.graphEdges ++ ex
  nodes : ∀ n, n ∈ s.graphNodes → n ∈ S.graphNodes
  ib : ∀ n b, b ∈ ibLookup s n → b ∈ ibLookup S n

/-! ## Concrete worlds and states used by witnesses and counterexamples -/

/-- A three-repository world: g/urlA builds on g/urlB, which builds on the
root g/urlC; no two distinct branches are content-identical. -/
def wChain : World :=
  { pathOf := fun _ => "p",
    diffEmpty := fun _ _ _ => false,
    baseUrl := fun u _ =>
      if u = "g/urlA" then "g/urlB" else if u = "g/urlB" then "g/urlC" else "" }

/-- A world of root repositories in which any two branches of a repository
have an empty diff. -/
def wTrue : World :=
  { pathOf := fun _ => "p", diffEmpty := fun _ _ _ => true, baseUrl := fun _ _ => "" }

/-- A world of root repositories in which two distinct branches always
differ. -/
def wFalse : World :=
  { pathOf := fun _ => "p", diffEmpty := fun _ _ _ => false, baseUrl := fun _ _ => "" }

/-- A one-vertex state: the root vertex (g/u, b), recorded in the
repository index, with no edges. -/
def stRootU : BuilderState :=
  { graphNodes := [{ git_url := "g/u", branch := "b" }], graphEdges := [],
    identBr := [], repoNodes := [("g/u", [{ git_url := "g/u", branch := "b" }])],
    roots := [{ git_url := "g/u", branch := "b" }] }

/-- A two-vertex state: root (g/p, b) with child (g/u, b), both recorded in
the repository index. -/
def stPN : BuilderState :=
  { graphNodes := [{ git_url := "g/p", branch := "b" }, { git_url := "g/u", branch := "b" }],
    graphEdges := [({ git_url := "g/p", branch := "b" }, { git_url := "g/u", branch := "b" })],
    identBr := [],
    repoNodes := [("g/p", [{ git_url := "g/p", branch := "b" }]),
                  ("g/u", [{ git_url := "g/u", branch := "b" }])],
    roots := [{ git_url := "g/p", branch := "b" }] }

/-- A two-root build environment: root gh/d/r1 (whose build fails with the
message boom) with child gh/d/c1, and root gh/d/r2 (whose build succeeds)
with child gh/d/c2. -/
def envW : BuildEnv :=
  { edges := [({ git_url := "gh/d/r1", branch := "b" }, { git_url := "gh/d/c1", branch := "b" }),
              ({ git_url := "gh/d/r2", branch := "b" }, { git_url := "gh/d/c2", branch := "b" })],
    identBr := [],
    builds := fun n =>
      if n.git_url = "gh/d/r1" then
        { succeed := false, err_msg := "boom", image := "img1", tag := "t",
          action := "build", seconds := 1 }
      else
        { succeed := true, err_msg := "", image := "img", tag := "t",
          action := "build", seconds := 1 },
    push := false, mmddhh := "0101", pushSeconds := fun _ => 0 }

/-- The state the traversal of envW reaches: the failing root recorded and
in the failures list, its child skipped, the healthy subtree fully built
and tagged. -/
def tsW : TState :=
  { attr := [({ git_url := "gh/d/r1", branch := "b" },
              { build_succeed := false, build_err_msg := "boom", image_name := "img1",
                action_time := [("t", "build", 1)] }),
             ({ git_url := "gh/d/r2", branch := "b" },
              { build_succeed := true, build_err_msg := "", image_name := "img",
                action_time := [("t", "build", 1), ("t_0101", "tag", 0)] }),
             ({ git_url := "gh/d/c2", branch := "b" },
              { build_succeed := true, build_err_msg := "", image_name := "img",
                action_time := [("t", "build", 1), ("t_0101", "tag", 0)] })],
    failures := [{ git_url := "gh/d/r1", branch := "b" }] }

/-! # Theorems -/

/-! ## The lineage walk -/

/-- The tuple-against-Node membership test of get_deps is identically
false, whatever the graph holds. -/
theorem tupleMemNodes_false (t : String × String) (nodes : List Node) :
    tupleMemNodes t nodes = false := by
  induction nodes with
  | nil => rfl
  | cons n rest ih => simp [tupleMemNodes, pyEqTupleNode]

/-- Consequently the walk of get_deps does not depend on the vertex set it
is given. -/
theorem get_deps_indep (w : World) (rb rb' : List Node) :
    ∀ fuel n, get_deps w rb fuel n = get_deps w rb' fuel n := by
  intro fuel
  induction fuel with
  | zero => intro n; rfl
  | succ fuel ih =>
    intro n
    simp only [get_deps, tupleMemNodes_false, ih (baseNode w n)]

/-- Every successful walk runs all the way up: the head of the returned
chain is a true root (its declared upstream URL is empty). -/
theorem get_deps_head_root (w : World) (rb : List Node) :
    ∀ fuel n l, get_deps w rb fuel n = some l →
      ∃ d rest, l = d :: rest ∧ w.baseUrl d.git_url d.branch = "" := by
  intro fuel
  induction fuel with
  | zero => intro n l h; exact absurd h (by simp [get_deps])
  | succ fuel ih =>
    intro n l h
    rw [get_deps, tupleMemNodes_false] at h
    simp only [Bool.false_eq_true, if_false] at h
    by_cases hb : w.baseUrl n.git_url n.branch = ""
    · rw [if_pos hb] at h
      exact ⟨n, [], by simpa using h.symm, hb⟩
    · rw [if_neg hb] at h
      cases hrec : get_deps w rb fuel (baseNode w n) with
      | none => rw [hrec] at h; exact absurd h (by simp)
      | some l' =>
        rw [hrec] at h
        obtain ⟨d, rest, hcons, hroot⟩ := ih (baseNode w n) l' hrec
        refine ⟨d, rest ++ [n], ?_, hroot⟩
        simp only [← Option.some_inj.mp h, hcons, List.cons_append]

/-- C1: the claim reads that a lineage walk started by get_deps stops at a
base (URL, branch) that is already a vertex of the graph under
construction.  In the code the membership test compares a Python tuple
against Node dataclass vertices and is therefore always false (first
conjunct), so the walk never stops at the known vertex: with vertex
(g/urlB, dev) already in the graph and g/urlA declaring base g/urlB, which
declares base g/urlC (a true root), the walk continues past g/urlB up to
g/urlC instead of returning the chain attached at g/urlB. -/
theorem c1_walk_never_stops_at_known_vertex :
    tupleMemNodes ("g/urlB", "dev") [{ git_url := "g/urlB", branch := "dev" }] = false
    ∧ get_deps wChain [{ git_url := "g/urlB", branch := "dev" }] 10
        { git_url := "g/urlA", branch := "dev" }
      = some [{ git_url := "g/urlC", branch := "dev" },
              { git_url := "g/urlB", branch := "dev" },
              { git_url := "g/urlA", branch := "dev" }] := by
  exact ⟨rfl, by decide⟩

/-! ## The push and pull retry wrapper -/

/-- Execution profile of the retry loop: at least one and at most r + 1
invocations, one sleep per invocation that is not the last, the result is
the unmodified outcome of the last invocation, and every invocation before
the last failed transiently. -/
theorem pushLoop_spec (op : Nat → PushOutcome) :
    ∀ r i, 1 ≤ (pushLoop op i r).1 ∧ (pushLoop op i r).1 ≤ r + 1
      ∧ (pushLoop op i r).2.1 = (pushLoop op i r).1 - 1
      ∧ (pushLoop op i r).2.2 = outcomeResult (op (i + (pushLoop op i r).1 - 1))
      ∧ (∀ j, j < (pushLoop op i r).1 - 1 → op (i + j) = PushOutcome.transient) := by
  intro r
  induction r with
  | zero =>
    intro i
    refine ⟨le_refl 1, le_refl 1, rfl, by simp [pushLoop], ?_⟩
    intro j hj
    simp [pushLoop] at hj
  | succ r ih =>
    intro i
    cases h : op i with
    | ok s =>
      have hP : pushLoop op i (r + 1) = (1, 0, Except.ok s) := by simp [pushLoop, h]
      rw [hP]
      refine ⟨le_refl 1, by omega, rfl, ?_, ?_⟩
      · have harg : i + 1 - 1 = i := by omega
        rw [harg, h]
        rfl
      · intro j hj
        exact absurd hj (by omega)
    | transient =>
      obtain ⟨h1, h2, h3, h4, h5⟩ := ih (i + 1)
      have hP : pushLoop op i (r + 1)
          = ((pushLoop op (i + 1) r).1 + 1, (pushLoop op (i + 1) r).2.1 + 1,
             (pushLoop op (i + 1) r).2.2) := by
        simp [pushLoop, h]
      rw [hP]
      dsimp only
      refine ⟨by omega, by omega, by omega, ?_, ?_⟩
      · have harg : i + 1 + (pushLoop op (i + 1) r).1 - 1
            = i + ((pushLoop op (i + 1) r).1 + 1) - 1 := by omega
        rw [h4, harg]
      · intro j hj
        cases j with
        | zero => simpa using h
        | succ k =>
          have harg : i + (k + 1) = i + 1 + k := by omega
          rw [harg]
          exact h5 k (by omega)
    | fatal =>
      have hP : pushLoop op i (r + 1) = (1, 0, Except.error PushErr.otherError) := by
        simp [pushLoop, h]
      rw [hP]
      refine ⟨le_refl 1, by omega, rfl, ?_, ?_⟩
      · have harg : i + 1 - 1 = i := by omega
        rw [harg, h]
        rfl
      · intro j hj
        exact absurd hj (by omega)

/-- C5 counterexample: with attempts set to 2 and an operation that always
fails with the transient subprocess error, the operation is invoked 3
times (2 loop tries plus the final unguarded try), contradicting the claim
that it is invoked at most 2 times in total. -/
theorem c5_counterexample_three_invocations :
    (push_image (fun _ => PushOutcome.transient) 2).1 = 3
    ∧ ¬((push_image (fun _ => PushOutcome.transient) 2).1 ≤ 2) := by
  decide

/-- C5 amended: the wrapper invokes the operation at most retry + 1 times
(exactly once when retry is at most 1), sleeps the backoff once after every
invocation but the last (each such invocation having failed transiently,
so a non-transient error ends the run immediately), and propagates the
outcome of the last invocation unmodified; pull_image behaves identically
to push_image. -/
theorem c5_retry_profile (op : Nat → PushOutcome) (retry : Int) :
    (push_image op retry).1 ≤ max (retry.toNat + 1) 1
    ∧ (retry ≤ 1 → (push_image op retry).1 = 1)
    ∧ (push_image op retry).2.1 = (push_image op retry).1 - 1
    ∧ (push_image op retry).2.2 = outcomeResult (op ((push_image op retry).1 - 1))
    ∧ (∀ j, j < (push_image op retry).1 - 1 → op j = PushOutcome.transient)
    ∧ pull_image op retry = push_image op retry := by
  by_cases h : retry ≤ 1
  · have hP : push_image op retry = (1, 0, outcomeResult (op 0)) := by
      simp [push_image, h]
    have hQ : pull_image op retry = (1, 0, outcomeResult (op 0)) := by
      simp [pull_image, h]
    rw [hP, hQ]
    refine ⟨by omega, fun _ => rfl, rfl, rfl, ?_, rfl⟩
    intro j hj
    exact absurd hj (by omega)
  · obtain ⟨h1, h2, h3, h4, h5⟩ := pushLoop_spec op retry.toNat 0
    have hP : push_image op retry = pushLoop op 0 retry.toNat := by
      simp [push_image, h]
    have hQ : pull_image op retry = pushLoop op 0 retry.toNat := by
      simp [pull_image, h]
    rw [hP, hQ]
    refine ⟨le_trans h2 (le_max_left _ _), fun hc => absurd hc h, h3, ?_, ?_, rfl⟩
    · simpa using h4
    · intro j hj
      simpa using h5 j hj

/-- C5 witness: the amended profile at a concrete operation that succeeds
immediately with 3 retries. -/
theorem c5_retry_profile_witness :
    (push_image (fun _ => PushOutcome.ok 7) 3).1 ≤ max ((3 : Int).toNat + 1) 1
    ∧ ((3 : Int) ≤ 1 → (push_image (fun _ => PushOutcome.ok 7) 3).1 = 1)
    ∧ (push_image (fun _ => PushOutcome.ok 7) 3).2.1
        = (push_image (fun _ => PushOutcome.ok 7) 3).1 - 1
    ∧ (push_image (fun _ => PushOutcome.ok 7) 3).2.2
        = outcomeResult ((fun _ => PushOutcome.ok 7)
            ((push_image (fun _ => PushOutcome.ok 7) 3).1 - 1))
    ∧ (∀ j, j < (push_image (fun _ => PushOutcome.ok 7) 3).1 - 1 →
        (fun _ => PushOutcome.ok 7) j = PushOutcome.transient)
    ∧ pull_image (fun _ => PushOutcome.ok 7) 3 = push_image (fun _ => PushOutcome.ok 7) 3 :=
  c5_retry_profile (fun _ => PushOutcome.ok 7) 3

/-! ## The tagging policy -/

/-- The per-branch tagging fold appends, for each recorded branch, the
mapped tag and then its date-suffixed variant. -/
theorem tag_fold_append (mmddhh : String) (brs : List String) :
    ∀ acc, brs.foldl
        (fun acc br => tag_image_1 (tag_date mmddhh (branch_to_tag br))
          (tag_image_1 (branch_to_tag br) acc)) acc
      = acc ++ (brs.map (fun br =>
          [(branch_to_tag br, "tag", (0 : Nat)),
           (tag_date mmddhh (branch_to_tag br), "tag", 0)])).flatten := by
  induction brs with
  | nil => intro acc; simp
  | cons br rest ih =>
    intro acc
    rw [List.foldl_cons, ih]
    simp [tag_image_1]

/-! ## Graph construction: association-list lemmas -/

/-- Appending under one key leaves every other key's list unchanged. -/
theorem repoFind_repoAppend_other (l : List (String × List Node)) (u : String) (n : Node)
    (v : String) (hv : v ≠ u) :
    repoFind (repoAppend l u n) v = repoFind l v := by
  induction l with
  | nil =>
    simp only [repoAppend, repoFind]
    rw [if_neg (fun h => hv h.symm)]
  | cons p rest ih =>
    simp only [repoAppend]
    by_cases hp : p.1 = u
    · rw [if_pos hp]
      simp only [repoFind]
      rw [if_neg (by rw [hp]; exact fun h => hv h.symm),
        if_neg (by rw [hp]; exact fun h => hv h.symm)]
    · rw [if_neg hp]
      simp only [repoFind]
      by_cases hpv : p.1 = v
      · rw [if_pos hpv, if_pos hpv]
      · rw [if_neg hpv, if_neg hpv, ih]

/-- Appending under a key appends to that key's list. -/
theorem repoFind_repoAppend_self (l : List (String × List Node)) (u : String) (n : Node) :
    repoFind (repoAppend l u n) u = repoFind l u ++ [n] := by
  induction l with
  | nil =>
    simp [repoAppend, repoFind]
  | cons p rest ih =>
    simp only [repoAppend]
    by_cases hp : p.1 = u
    · rw [if_pos hp]
      simp only [repoFind]
      rw [if_pos hp, if_pos hp]
    · rw [if_neg hp]
      simp only [repoFind]
      rw [if_neg hp, if_neg hp, ih]

/-- Recording an already-recorded branch is a no-op on the attribute list. -/
theorem ibAdd_noop (l : List (Node × List String)) (n : Node) (b : String)
    (hb : b ∈ ibFind l n) : ibAdd l n b = l := by
  induction l with
  | nil => simp [ibFind] at hb
  | cons p rest ih =>
    simp only [ibFind] at hb
    simp only [ibAdd]
    by_cases hp : p.1 = n
    · rw [if_pos hp] at hb ⊢
      rw [if_pos hb]
    · rw [if_neg hp] at hb ⊢
      rw [ih hb]

/-- The branch set of the node after set.add. -/
theorem ibFind_ibAdd_self (l : List (Node × List String)) (n : Node) (b : String) :
    ibFind (ibAdd l n b) n
      = if b ∈ ibFind l n then ibFind l n else ibFind l n ++ [b] := by
  induction l with
  | nil =>
    simp [ibAdd, ibFind]
  | cons p rest ih =>
    simp only [ibAdd, ibFind]
    by_cases hp : p.1 = n
    · rw [if_pos hp, if_pos hp]
      by_cases hb : b ∈ p.2
      · rw [if_pos hb, if_pos hb]
        simp only [ibFind]
        rw [if_pos hp]
      · rw [if_neg hb, if_neg hb]
        simp only [ibFind]
        rw [if_pos hp]
    · rw [if_neg hp, if_neg hp]
      simp only [ibFind]
      rw [if_neg hp, ih]

/-- set.add on one node leaves every other node's branch set unchanged. -/
theorem ibFind_ibAdd_other (l : List (Node × List String)) (n : Node) (b : String)
    (m : Node) (hm : m ≠ n) :
    ibFind (ibAdd l n b) m = ibFind l m := by
  induction l with
  | nil =>
    simp only [ibAdd, ibFind]
    rw [if_neg (fun h => hm h.symm)]
  | cons p rest ih =>
    simp only [ibAdd]
    by_cases hp : p.1 = n
    · rw [if_pos hp]
      by_cases hb : b ∈ p.2
      · rw [if_pos hb]
      · rw [if_neg hb]
        simp only [ibFind]
        rw [if_neg (by rw [hp]; exact fun h => hm h.symm),
          if_neg (by rw [hp]; exact fun h => hm h.symm)]
    · rw [if_neg hp]
      simp only [ibFind]
      by_cases hpm : p.1 = m
      · rw [if_pos hpm, if_pos hpm]
      · rw [if_neg hpm, if_neg hpm, ih]

/-- Membership in any branch set survives set.add. -/
theorem ibFind_ibAdd_mono (l : List (Node × List String)) (n : Node) (b : String)
    (m : Node) (c : String) (hc : c ∈ ibFind l m) :
    c ∈ ibFind (ibAdd l n b) m := by
  by_cases hm : m = n
  · subst hm
    rw [ibFind_ibAdd_self]
    by_cases hb : b ∈ ibFind l m
    · rwa [if_pos hb]
    · rw [if_neg hb]
      exact List.mem_append_left _ hc
  · rwa [ibFind_ibAdd_other l n b m hm]

/-! ## Graph construction: operation lemmas -/

/-- A branch is always content-identical to itself. -/
theorem compare_git_branches_refl (w : World) (path b : String) :
    compare_git_branches w path b b = true := by
  simp [compare_git_branches]

/-- A found identical node is one of the recorded nodes of the repository
and its branch is content-identical to the candidate branch. -/
theorem find_identical_node_some (w : World) (st : BuilderState) (n x : Node)
    (h : find_identical_node w st n = some x) :
    x ∈ lookupRepo st n.git_url
    ∧ compare_git_branches w (w.pathOf n.git_url) x.branch n.branch = true := by
  unfold find_identical_node at h
  by_cases he : (lookupRepo st n.git_url).isEmpty
  · rw [if_pos he] at h
    exact absurd h (by simp)
  · rw [if_neg he] at h
    refine ⟨List.mem_of_find?_eq_some h, ?_⟩
    simpa using List.find?_some h

/-- When no identical node is found, no recorded branch of the repository
is content-identical to the candidate branch. -/
theorem find_identical_node_none (w : World) (st : BuilderState) (n : Node)
    (h : find_identical_node w st n = none) :
    ∀ m ∈ lookupRepo st n.git_url,
      compare_git_branches w (w.pathOf n.git_url) m.branch n.branch = false := by
  unfold find_identical_node at h
  intro m hm
  by_cases he : (lookupRepo st n.git_url).isEmpty
  · rw [List.isEmpty_iff] at he
    rw [he] at hm
    simp at hm
  · rw [if_neg he] at h
    have := List.find?_eq_none.mp h m hm
    simpa using this

/-- A successful identity resolution is stable under appending further
nodes to the repository index. -/
theorem find_identical_node_extend (w : World) (st S : BuilderState) (n x : Node)
    (hx : find_identical_node w st n = some x)
    (hext : ∃ ex, lookupRepo S n.git_url = lookupRepo st n.git_url ++ ex) :
    find_identical_node w S n = some x := by
  obtain ⟨ex, hre⟩ := hext
  unfold find_identical_node at hx ⊢
  by_cases he : (lookupRepo st n.git_url).isEmpty
  · rw [if_pos he] at hx
    exact absurd hx (by simp)
  · rw [if_neg he] at hx
    have hnil : lookupRepo st n.git_url ≠ [] := by
      intro h0
      exact he (by rw [h0]; rfl)
    have hne : ¬((lookupRepo S n.git_url).isEmpty = true) := by
      rw [hre, List.isEmpty_iff, List.append_eq_nil]
      exact fun h => hnil h.1
    rw [if_neg hne, hre, List.find?_append, hx]
    rfl

/-- The first predecessor of a node is stable under appending edges. -/
theorem firstPred_extend (st S : BuilderState) (n p : Node)
    (h : firstPred st n = some p) (hext : ∃ ex, S.graphEdges = st.graphEdges ++ ex) :
    firstPred S n = some p := by
  obtain ⟨ex, he⟩ := hext
  unfold firstPred preds at h ⊢
  rw [he, List.filter_append, List.map_append, List.head?_append, h]
  rfl

/-- graph.add_node leaves every field but the vertex list unchanged. -/
theorem graphAddNode_edges (st : BuilderState) (n : Node) :
    (graphAddNode st n).graphEdges = st.graphEdges := by
  unfold graphAddNode
  split_ifs <;> rfl

theorem graphAddNode_repoNodes (st : BuilderState) (n : Node) :
    (graphAddNode st n).repoNodes = st.repoNodes := by
  unfold graphAddNode
  split_ifs <;> rfl

theorem graphAddNode_identBr (st : BuilderState) (n : Node) :
    (graphAddNode st n).identBr = st.identBr := by
  unfold graphAddNode
  split_ifs <;> rfl

theorem graphAddNode_roots (st : BuilderState) (n : Node) :
    (graphAddNode st n).roots = st.roots := by
  unfold graphAddNode
  split_ifs <;> rfl

/-- The node is a vertex after graph.add_node. -/
theorem mem_graphAddNode_self (st : BuilderState) (n : Node) :
    n ∈ (graphAddNode st n).graphNodes := by
  unfold graphAddNode
  split_ifs with h
  · exact h
  · simp

/-- Vertices survive graph.add_node. -/
theorem mem_graphAddNode_of_mem (st : BuilderState) (n m : Node)
    (h : m ∈ st.graphNodes) : m ∈ (graphAddNode st n).graphNodes := by
  unfold graphAddNode
  split_ifs
  · exact h
  · exact List.mem_append_left _ h

/-- graph.add_node with an existing vertex is a no-op. -/
theorem graphAddNode_noop (st : BuilderState) (n : Node) (h : n ∈ st.graphNodes) :
    graphAddNode st n = st := by
  unfold graphAddNode
  rw [if_pos h]

/-- graph.add_edge leaves the repository index, the attributes and the
roots unchanged. -/
theorem graphAddEdge_repoNodes (st : BuilderState) (a b : Node) :
    (graphAddEdge st a b).repoNodes = st.repoNodes := by
  unfold graphAddEdge
  split_ifs <;> simp [graphAddNode_repoNodes]

theorem graphAddEdge_identBr (st : BuilderState) (a b : Node) :
    (graphAddEdge st a b).identBr = st.identBr := by
  unfold graphAddEdge
  split_ifs <;> simp [graphAddNode_identBr]

theorem graphAddEdge_roots (st : BuilderState) (a b : Node) :
    (graphAddEdge st a b).roots = st.roots := by
  unfold graphAddEdge
  split_ifs <;> simp [graphAddNode_roots]

/-- graph.add_edge appends to the edge list (nothing when the edge is
already present). -/
theorem graphAddEdge_edges_extend (st : BuilderState) (a b : Node) :
    ∃ ex, (graphAddEdge st a b).graphEdges = st.graphEdges ++ ex := by
  unfold graphAddEdge
  split_ifs
  · exact ⟨[], by simp [graphAddNode_edges]⟩
  · exact ⟨[(a, b)], by simp [graphAddNode_edges]⟩

/-- The edge is present after graph.add_edge. -/
theorem mem_graphAddEdge_self (st : BuilderState) (a b : Node) :
    (a, b) ∈ (graphAddEdge st a b).graphEdges := by
  unfold graphAddEdge
  split_ifs with h
  · exact h
  · simp

/-- Both endpoints are vertices after graph.add_edge, and vertices
survive it. -/
theorem mem_graphAddEdge_left (st : BuilderState) (a b : Node) :
    a ∈ (graphAddEdge st a b).graphNodes := by
  unfold graphAddEdge
  split_ifs <;>
    exact mem_graphAddNode_of_mem _ _ _ (mem_graphAddNode_self st a)

theorem mem_graphAddEdge_right (st : BuilderState) (a b : Node) :
    b ∈ (graphAddEdge st a b).graphNodes := by
  unfold graphAddEdge
  split_ifs <;> exact mem_graphAddNode_self _ b

theorem mem_graphAddEdge_of_mem (st : BuilderState) (a b m : Node)
    (h : m ∈ st.graphNodes) : m ∈ (graphAddEdge st a b).graphNodes := by
  unfold graphAddEdge
  split_ifs <;>
    exact mem_graphAddNode_of_mem _ _ _ (mem_graphAddNode_of_mem _ _ _ h)

/-- graph.add_edge with both endpoints and the edge already present is a
no-op. -/
theorem graphAddEdge_noop (st : BuilderState) (a b : Node)
    (ha : a ∈ st.graphNodes) (hb : b ∈ st.graphNodes)
    (he : (a, b) ∈ st.graphEdges) : graphAddEdge st a b = st := by
  unfold graphAddEdge
  rw [graphAddNode_noop st a ha, graphAddNode_noop st b hb, if_pos he]

/-! ## Equation lemmas for the four branches of add_edge and the two of
add_root_node -/

/-- add_edge when node2 has no content-identical recorded node: the edge is
inserted and node2 indexed. -/
theorem add_edge_eq_insert (w : World) (st : BuilderState) (n1 n2 : Node)
    (hf : find_identical_node w st n2 = none) :
    add_edge w st n1 n2
      = Except.ok (appendRepo (graphAddEdge st n1 n2) n2.git_url n2, n2) := by
  unfold add_edge
  rw [hf]

/-- The shape of add_edge once an identical node has been found. -/
theorem add_edge_eq_found (w : World) (st : BuilderState) (n1 n2 i : Node)
    (hf : find_identical_node w st n2 = some i) :
    add_edge w st n1 n2
      = (match firstPred st i with
         | none => Except.error BuildErr.stopIteration
         | some p =>
           if p ≠ n1 then Except.ok (graphAddEdge st n1 n2, n2)
           else Except.ok (add_identical_branch st i n2.branch, i)) := by
  unfold add_edge
  rw [hf]

/-- add_edge raises StopIteration when the identical node has no
predecessor. -/
theorem add_edge_eq_stop (w : World) (st : BuilderState) (n1 n2 i : Node)
    (hf : find_identical_node w st n2 = some i) (hp : firstPred st i = none) :
    add_edge w st n1 n2 = Except.error BuildErr.stopIteration := by
  rw [add_edge_eq_found w st n1 n2 i hf, hp]

/-- add_edge inserts a plain edge when the identical node hangs under a
different predecessor. -/
theorem add_edge_eq_dup (w : World) (st : BuilderState) (n1 n2 i p : Node)
    (hf : find_identical_node w st n2 = some i) (hp : firstPred st i = some p)
    (hne : p ≠ n1) :
    add_edge w st n1 n2 = Except.ok (graphAddEdge st n1 n2, n2) := by
  rw [add_edge_eq_found w st n1 n2 i hf, hp]
  exact if_pos hne

/-- add_edge reuses the identical node when its first predecessor is
node1. -/
theorem add_edge_eq_reuse (w : World) (st : BuilderState) (n1 n2 i : Node)
    (hf : find_identical_node w st n2 = some i) (hp : firstPred st i = some n1) :
    add_edge w st n1 n2 = Except.ok (add_identical_branch st i n2.branch, i) := by
  rw [add_edge_eq_found w st n1 n2 i hf, hp]
  exact if_neg (fun hc => hc rfl)

/-- add_root_node when no identical node is recorded: insert, index, and
record as a root. -/
theorem add_root_node_eq_insert (w : World) (st : BuilderState) (n : Node)
    (hf : find_identical_node w st n = none) :
    add_root_node w st n
      = ({ appendRepo (graphAddNode st n) n.git_url n with
           roots := (appendRepo (graphAddNode st n) n.git_url n).roots ++ [n] }, n) := by
  unfold add_root_node
  rw [hf]

/-- add_root_node when an identical node exists: record the branch and
reuse it. -/
theorem add_root_node_eq_reuse (w : World) (st : BuilderState) (n i : Node)
    (hf : find_identical_node w st n = some i) :
    add_root_node w st n = (add_identical_branch st i n.branch, i) := by
  unfold add_root_node
  rw [hf]

/-- add_identical_branch changes no field but the attributes. -/
theorem aib_graphNodes (st : BuilderState) (n : Node) (b : String) :
    (add_identical_branch st n b).graphNodes = st.graphNodes := by
  unfold add_identical_branch
  split_ifs <;> rfl

theorem aib_graphEdges (st : BuilderState) (n : Node) (b : String) :
    (add_identical_branch st n b).graphEdges = st.graphEdges := by
  unfold add_identical_branch
  split_ifs <;> rfl

theorem aib_repoNodes (st : BuilderState) (n : Node) (b : String) :
    (add_identical_branch st n b).repoNodes = st.repoNodes := by
  unfold add_identical_branch
  split_ifs <;> rfl

theorem aib_roots (st : BuilderState) (n : Node) (b : String) :
    (add_identical_branch st n b).roots = st.roots := by
  unfold add_identical_branch
  split_ifs <;> rfl

/-- Recording the primary branch of a node, or a branch already recorded,
is a no-op on the whole state. -/
theorem aib_noop (st : BuilderState) (n : Node) (b : String)
    (h : n.branch = b ∨ b ∈ ibLookup st n) : add_identical_branch st n b = st := by
  unfold add_identical_branch
  by_cases hb : n.branch = b
  · rw [if_pos hb]
  · rw [if_neg hb]
    rcases h with h | h
    · exact absurd h hb
    · unfold ibInsert
      rw [ibAdd_noop st.identBr n b h]

/-- Recorded identical branches survive add_identical_branch. -/
theorem aib_ib_mono (st : BuilderState) (n : Node) (b : String) (m : Node) (c : String)
    (hc : c ∈ ibLookup st m) : c ∈ ibLookup (add_identical_branch st n b) m := by
  unfold add_identical_branch
  split_ifs
  · exact hc
  · exact ibFind_ibAdd_mono st.identBr n b m c hc

/-- After add_identical_branch with a branch that is not the primary one,
the branch is recorded. -/
theorem aib_ib_self (st : BuilderState) (n : Node) (b : String) (hb : n.branch ≠ b) :
    b ∈ ibLookup (add_identical_branch st n b) n := by
  unfold add_identical_branch
  rw [if_neg hb]
  show b ∈ ibFind (ibAdd st.identBr n b) n
  rw [ibFind_ibAdd_self]
  by_cases h : b ∈ ibFind st.identBr n
  · rwa [if_pos h]
  · rw [if_neg h]
    simp

/-! ## The extension order and its preservation by the operations -/

theorem Ext.rfl (st : BuilderState) : Ext st st :=
  ⟨fun u => ⟨[], by simp⟩, ⟨[], by simp⟩, fun _ h => h, fun _ _ h => h⟩

theorem Ext.comp {a b c : BuilderState} (h1 : Ext a b) (h2 : Ext b c) : Ext a c := by
  refine ⟨fun u => ?_, ?_, fun n h => h2.nodes n (h1.nodes n h), fun n s h => h2.ib n s (h1.ib n s h)⟩
  · obtain ⟨e1, he1⟩ := h1.repo u
    obtain ⟨e2, he2⟩ := h2.repo u
    exact ⟨e1 ++ e2, by rw [he2, he1, List.append_assoc]⟩
  · obtain ⟨e1, he1⟩ := h1.edges
    obtain ⟨e2, he2⟩ := h2.edges
    exact ⟨e1 ++ e2, by rw [he2, he1, List.append_assoc]⟩

theorem ext_graphAddNode (st : BuilderState) (n : Node) : Ext st (graphAddNode st n) :=
  ⟨fun u => ⟨[], by simp [lookupRepo, graphAddNode_repoNodes]⟩,
   ⟨[], by simp [graphAddNode_edges]⟩,
   fun m h => mem_graphAddNode_of_mem st n m h,
   fun m b h => by simpa [ibLookup, graphAddNode_identBr] using h⟩

theorem ext_graphAddEdge (st : BuilderState) (a b : Node) : Ext st (graphAddEdge st a b) :=
  ⟨fun u => ⟨[], by simp [lookupRepo, graphAddEdge_repoNodes]⟩,
   graphAddEdge_edges_extend st a b,
   fun m h => mem_graphAddEdge_of_mem st a b m h,
   fun m c h => by simpa [ibLookup, graphAddEdge_identBr] using h⟩

theorem ext_appendRepo (st : BuilderState) (u : String) (n : Node) :
    Ext st (appendRepo st u n) := by
  refine ⟨fun v => ?_, ⟨[], by simp [appendRepo]⟩, fun m h => h, fun m b h => h⟩
  by_cases hv : v = u
  · subst hv
    exact ⟨[n], (repoFind_repoAppend_self st.repoNodes v n : _)⟩
  · exact ⟨[], by simpa using (repoFind_repoAppend_other st.repoNodes u n v hv : _)⟩

theorem ext_aib (st : BuilderState) (n : Node) (b : String) :
    Ext st (add_identical_branch st n b) :=
  ⟨fun u => ⟨[], by simp [lookupRepo, aib_repoNodes]⟩,
   ⟨[], by simp [aib_graphEdges]⟩,
   fun m h => by simpa [aib_graphNodes] using h,
   fun m c h => aib_ib_mono st n b m c h⟩

theorem ext_add_root_node (w : World) (st : BuilderState) (n : Node) :
    Ext st (add_root_node w st n).1 := by
  unfold add_root_node
  cases hf : find_identical_node w st n with
  | none =>
    refine Ext.comp (Ext.comp (ext_graphAddNode st n)
      (ext_appendRepo (graphAddNode st n) n.git_url n)) ?_
    exact ⟨fun u => ⟨[], by simp [lookupRepo]⟩, ⟨[], by simp⟩, fun m h => h, fun m c h => h⟩
  | some i => exact ext_aib st i n.branch

theorem ext_add_edge (w : World) (st st' : BuilderState) (a b r : Node)
    (h : add_edge w st a b = Except.ok (st', r)) : Ext st st' := by
  cases hf : find_identical_node w st b with
  | none =>
    rw [add_edge_eq_insert w st a b hf] at h
    simp only [Except.ok.injEq, Prod.mk.injEq] at h
    rw [← h.1]
    exact Ext.comp (ext_graphAddEdge st a b)
      (ext_appendRepo (graphAddEdge st a b) b.git_url b)
  | some i =>
    cases hp : firstPred st i with
    | none =>
      rw [add_edge_eq_stop w st a b i hf hp] at h
      exact absurd h (by simp)
    | some p =>
      by_cases hne : p ≠ a
      · rw [add_edge_eq_dup w st a b i p hf hp hne] at h
        simp only [Except.ok.injEq, Prod.mk.injEq] at h
        rw [← h.1]
        exact ext_graphAddEdge st a b
      · have hpa : p = a := not_not.mp hne
        rw [hpa] at hp
        rw [add_edge_eq_reuse w st a b i hf hp] at h
        simp only [Except.ok.injEq, Prod.mk.injEq] at h
        rw [← h.1]
        exact ext_aib st i b.branch

theorem ext_applyOp (w : World) (st : BuilderState) (op : BOp) :
    Ext st (applyOp w st op) := by
  cases op with
  | addRoot n => exact ext_add_root_node w st n
  | addE a b =>
    show Ext st (match add_edge w st a b with
                 | Except.ok (st', _) => st'
                 | Except.error _ => st)
    cases h : add_edge w st a b with
    | ok r => exact ext_add_edge w st r.1 a b r.2 (by rw [h])
    | error e => exact Ext.rfl st

theorem ext_applyOps (w : World) (st : BuilderState) (ops : List BOp) :
    Ext st (applyOps w st ops) := by
  induction ops generalizing st with
  | nil => exact Ext.rfl st
  | cons op rest ih =>
    exact Ext.comp (ext_applyOp w st op) (ih (applyOp w st op))

/-- Reading the repository index through the operations that do not touch
it. -/
theorem lookupRepo_aib (st : BuilderState) (n : Node) (b : String) (u : String) :
    lookupRepo (add_identical_branch st n b) u = lookupRepo st u := by
  unfold lookupRepo
  rw [aib_repoNodes]

theorem lookupRepo_graphAddEdge (st : BuilderState) (a b : Node) (u : String) :
    lookupRepo (graphAddEdge st a b) u = lookupRepo st u := by
  unfold lookupRepo
  rw [graphAddEdge_repoNodes]

theorem lookupRepo_graphAddNode (st : BuilderState) (n : Node) (u : String) :
    lookupRepo (graphAddNode st n) u = lookupRepo st u := by
  unfold lookupRepo
  rw [graphAddNode_repoNodes]

/-- Reading the repository index after an append. -/
theorem lookupRepo_appendRepo (st : BuilderState) (u : String) (n : Node) (v : String) :
    lookupRepo (appendRepo st u n) v
      = if v = u then lookupRepo st v ++ [n] else lookupRepo st v := by
  by_cases hv : v = u
  · subst hv
    rw [if_pos rfl]
    exact repoFind_repoAppend_self st.repoNodes v n
  · rw [if_neg hv]
    exact repoFind_repoAppend_other st.repoNodes u n v hv

/-! ## C9 and C2: behaviour of add_edge on an identical vertex -/

/-- C9: when add_edge resolves node2 to a content-identical recorded vertex
that has no predecessor in the graph, the call to
next(graph.predecessors(inode2)) raises StopIteration out of add_edge
before any mutation: the vertex is neither reused nor duplicated, and no
documented consistency error is raised in its place. -/
theorem c9_stopiteration_on_identical_root (w : World) (st : BuilderState)
    (n1 n2 i : Node) (hf : find_identical_node w st n2 = some i)
    (hp : preds st i = []) :
    add_edge w st n1 n2 = Except.error BuildErr.stopIteration :=
  add_edge_eq_stop w st n1 n2 i hf (by unfold firstPred; rw [hp]; rfl)

/-- C9 witness: in the one-vertex state, adding an edge towards the node
whose identical vertex is the recorded root raises StopIteration. -/
theorem c9_stopiteration_witness :
    find_identical_node wFalse stRootU { git_url := "g/u", branch := "b" }
      = some { git_url := "g/u", branch := "b" }
    ∧ preds stRootU { git_url := "g/u", branch := "b" } = []
    ∧ add_edge wFalse stRootU { git_url := "g/q", branch := "b" }
        { git_url := "g/u", branch := "b" }
      = Except.error BuildErr.stopIteration :=
  ⟨by decide, by decide,
   c9_stopiteration_on_identical_root wFalse stRootU
     { git_url := "g/q", branch := "b" } { git_url := "g/u", branch := "b" }
     { git_url := "g/u", branch := "b" } (by decide) (by decide)⟩

/-- C2 counterexample: the claim promises two distinct vertices whenever a
node is added whose content-identical vertex hangs under a different
predecessor.  Take the state with root (g/p, b) and child (g/u, b), and add
the edge (g/q, b) to (g/u, b): the added node resolves to the
content-identical vertex (g/u, b) (same branch), whose predecessor (g/p, b)
differs from (g/q, b), yet after the call the graph still has exactly one
vertex for repository g/u, because graph.add_edge deduplicates by key
instead of inserting a second vertex. -/
theorem c2_counterexample_same_key_not_duplicated :
    find_identical_node wFalse stPN { git_url := "g/u", branch := "b" }
      = some { git_url := "g/u", branch := "b" }
    ∧ firstPred stPN { git_url := "g/u", branch := "b" }
      = some { git_url := "g/p", branch := "b" }
    ∧ ({ git_url := "g/p", branch := "b" } : Node) ≠ { git_url := "g/q", branch := "b" }
    ∧ (add_edge wFalse stPN { git_url := "g/q", branch := "b" }
        { git_url := "g/u", branch := "b" }).map
        (fun r => ((r.1.graphNodes.filter (fun m => m.git_url == "g/u")).length, r.2))
      = Except.ok (1, { git_url := "g/u", branch := "b" }) := by
  refine ⟨by decide, by decide, by decide, by rfl⟩

/-- C2 amended: when the node being added differs (as a key) from its
content-identical vertex and that vertex hangs under a different
predecessor, add_edge inserts a genuinely new vertex, both vertices are in
the graph, and no later add_root_node or add_edge call ever removes either
of them (vertices are never merged). -/
theorem c2_two_vertices_amended (w : World) (st : BuilderState) (n1 n2 i p : Node)
    (hf : find_identical_node w st n2 = some i)
    (hp : firstPred st i = some p) (hne : p ≠ n1) (hin : i ≠ n2)
    (hi : i ∈ st.graphNodes) :
    ∃ st', add_edge w st n1 n2 = Except.ok (st', n2)
      ∧ n2 ∈ st'.graphNodes ∧ i ∈ st'.graphNodes ∧ i ≠ n2
      ∧ ∀ ops : List BOp,
          n2 ∈ (applyOps w st' ops).graphNodes
          ∧ i ∈ (applyOps w st' ops).graphNodes := by
  refine ⟨graphAddEdge st n1 n2, add_edge_eq_dup w st n1 n2 i p hf hp hne,
    mem_graphAddEdge_right st n1 n2, mem_graphAddEdge_of_mem st n1 n2 i hi, hin, ?_⟩
  intro ops
  exact ⟨(ext_applyOps w _ ops).nodes n2 (mem_graphAddEdge_right st n1 n2),
         (ext_applyOps w _ ops).nodes i (mem_graphAddEdge_of_mem st n1 n2 i hi)⟩

/-- C2 witness: in the two-vertex state under the all-identical world,
adding (g/u, b2) below (g/q, b) finds the identical vertex (g/u, b) under
the different predecessor (g/p, b) and duplicates. -/
theorem c2_two_vertices_witness :
    find_identical_node wTrue stPN { git_url := "g/u", branch := "b2" }
      = some { git_url := "g/u", branch := "b" }
    ∧ (∃ st', add_edge wTrue stPN { git_url := "g/q", branch := "b" }
          { git_url := "g/u", branch := "b2" }
        = Except.ok (st', { git_url := "g/u", branch := "b2" })
      ∧ ({ git_url := "g/u", branch := "b2" } : Node) ∈ st'.graphNodes
      ∧ ({ git_url := "g/u", branch := "b" } : Node) ∈ st'.graphNodes
      ∧ ({ git_url := "g/u", branch := "b" } : Node) ≠ { git_url := "g/u", branch := "b2" }
      ∧ ∀ ops : List BOp,
          ({ git_url := "g/u", branch := "b2" } : Node)
            ∈ (applyOps wTrue st' ops).graphNodes
          ∧ ({ git_url := "g/u", branch := "b" } : Node)
            ∈ (applyOps wTrue st' ops).graphNodes) :=
  ⟨by decide,
   c2_two_vertices_amended wTrue stPN { git_url := "g/q", branch := "b" }
     { git_url := "g/u", branch := "b2" } { git_url := "g/u", branch := "b" }
     { git_url := "g/p", branch := "b" }
     (by decide) (by decide) (by decide) (by decide) (by decide)⟩

/-! ## C10: the duplicate vertex is invisible to identity resolution -/

/-- Preservation of the invisibility invariant by one construction call:
when some recorded node of the repository of d is content-identical to the
branch of d and d itself is not recorded, both facts survive add_root_node
and add_edge. -/
theorem c10_inv_preserved (w : World) (st : BuilderState) (d : Node)
    (hj : ∃ j ∈ lookupRepo st d.git_url,
      compare_git_branches w (w.pathOf d.git_url) j.branch d.branch = true)
    (hd : d ∉ lookupRepo st d.git_url) (op : BOp) :
    (∃ j ∈ lookupRepo (applyOp w st op) d.git_url,
      compare_git_branches w (w.pathOf d.git_url) j.branch d.branch = true)
    ∧ d ∉ lookupRepo (applyOp w st op) d.git_url := by
  obtain ⟨j, hjm, hjc⟩ := hj
  cases op with
  | addRoot n =>
    cases hf : find_identical_node w st n with
    | some i =>
      have hA : applyOp w st (BOp.addRoot n) = add_identical_branch st i n.branch := by
        show (add_root_node w st n).1 = _
        rw [add_root_node_eq_reuse w st n i hf]
      rw [hA, lookupRepo_aib]
      exact ⟨⟨j, hjm, hjc⟩, hd⟩
    | none =>
      have hA : applyOp w st (BOp.addRoot n)
          = { appendRepo (graphAddNode st n) n.git_url n with
              roots := (appendRepo (graphAddNode st n) n.git_url n).roots ++ [n] } := by
        show (add_root_node w st n).1 = _
        rw [add_root_node_eq_insert w st n hf]
      have hro : lookupRepo
          ({ appendRepo (graphAddNode st n) n.git_url n with
             roots := (appendRepo (graphAddNode st n) n.git_url n).roots ++ [n] })
          d.git_url
          = lookupRepo (appendRepo (graphAddNode st n) n.git_url n) d.git_url := rfl
      rw [hA, hro, lookupRepo_appendRepo, lookupRepo_graphAddNode]
      by_cases hu : d.git_url = n.git_url
      · rw [if_pos hu]
        have hnd : n ≠ d := by
          intro hnd
          subst hnd
          have := find_identical_node_none w st n hf j (by rwa [← hu])
          rw [hu] at this
          exact absurd hjc (by simp [this])
        constructor
        · exact ⟨j, List.mem_append_left _ hjm, hjc⟩
        · intro hmem
          rcases List.mem_append.mp hmem with h | h
          · exact hd h
          · simp only [List.mem_singleton] at h
            exact hnd h.symm
      · rw [if_neg hu]
        exact ⟨⟨j, hjm, hjc⟩, hd⟩
  | addE a b =>
    cases hf : find_identical_node w st b with
    | none =>
      have hA : applyOp w st (BOp.addE a b)
          = appendRepo (graphAddEdge st a b) b.git_url b := by
        show (match add_edge w st a b with
              | Except.ok (st', _) => st'
              | Except.error _ => st) = _
        rw [add_edge_eq_insert w st a b hf]
      rw [hA, lookupRepo_appendRepo, lookupRepo_graphAddEdge]
      by_cases hu : d.git_url = b.git_url
      · rw [if_pos hu]
        have hbd : b ≠ d := by
          intro hbd
          subst hbd
          have := find_identical_node_none w st b hf j (by rwa [← hu])
          rw [hu] at this
          exact absurd hjc (by simp [this])
        constructor
        · exact ⟨j, List.mem_append_left _ hjm, hjc⟩
        · intro hmem
          rcases List.mem_append.mp hmem with h | h
          · exact hd h
          · simp only [List.mem_singleton] at h
            exact hbd h.symm
      · rw [if_neg hu]
        exact ⟨⟨j, hjm, hjc⟩, hd⟩
    | some i =>
      cases hp : firstPred st i with
      | none =>
        have hA : applyOp w st (BOp.addE a b) = st := by
          show (match add_edge w st a b with
                | Except.ok (st', _) => st'
                | Except.error _ => st) = _
          rw [add_edge_eq_stop w st a b i hf hp]
        rw [hA]
        exact ⟨⟨j, hjm, hjc⟩, hd⟩
      | some p =>
        by_cases hne : p ≠ a
        · have hA : applyOp w st (BOp.addE a b) = graphAddEdge st a b := by
            show (match add_edge w st a b with
                  | Except.ok (st', _) => st'
                  | Except.error _ => st) = _
            rw [add_edge_eq_dup w st a b i p hf hp hne]
          rw [hA, lookupRepo_graphAddEdge]
          exact ⟨⟨j, hjm, hjc⟩, hd⟩
        · have hpa : p = a := not_not.mp hne
          rw [hpa] at hp
          have hA : applyOp w st (BOp.addE a b)
              = add_identical_branch st i b.branch := by
            show (match add_edge w st a b with
                  | Except.ok (st', _) => st'
                  | Except.error _ => st) = _
            rw [add_edge_eq_reuse w st a b i hf hp]
          rw [hA, lookupRepo_aib]
          exact ⟨⟨j, hjm, hjc⟩, hd⟩

/-- C10: (first part) the differing-predecessor branch of add_edge returns
without touching the repo_nodes index; (second part) identity resolution
only ever returns nodes present in the index; (third part) consequently a
node d that is not in the index while a content-identical node is indexed
for its repository stays out of the index through any sequence of later
construction calls, and no later identity query ever resolves to d. -/
theorem c10_duplicate_never_indexed :
    (∀ (w : World) (st : BuilderState) (n1 n2 i p : Node),
      find_identical_node w st n2 = some i → firstPred st i = some p → p ≠ n1 →
      ∃ st', add_edge w st n1 n2 = Except.ok (st', n2) ∧ st'.repoNodes = st.repoNodes)
    ∧ (∀ (w : World) (st : BuilderState) (n x : Node),
        find_identical_node w st n = some x → x ∈ lookupRepo st n.git_url)
    ∧ (∀ (w : World) (st : BuilderState) (d : Node),
        (∃ j ∈ lookupRepo st d.git_url,
          compare_git_branches w (w.pathOf d.git_url) j.branch d.branch = true) →
        d ∉ lookupRepo st d.git_url →
        ∀ ops : List BOp,
          d ∉ lookupRepo (applyOps w st ops) d.git_url
          ∧ find_identical_node w (applyOps w st ops) d ≠ some d) := by
  refine ⟨?_, ?_, ?_⟩
  · intro w st n1 n2 i p hf hp hne
    exact ⟨graphAddEdge st n1 n2, add_edge_eq_dup w st n1 n2 i p hf hp hne,
      graphAddEdge_repoNodes st n1 n2⟩
  · intro w st n x h
    exact (find_identical_node_some w st n x h).1
  · intro w st d hj hd ops
    induction ops generalizing st with
    | nil =>
      refine ⟨hd, fun hc => ?_⟩
      exact hd (find_identical_node_some w st d d hc).1
    | cons op rest ih =>
      have hstep := c10_inv_preserved w st d hj hd op
      exact ih (applyOp w st op) hstep.1 hstep.2

/-- C10 witness: with the vertex (g/u, b) indexed and the duplicate
(g/u, b2) absent from the index under the all-identical world, the
invariant holds through the empty sequence of calls, and the
differing-predecessor branch leaves the index untouched in the two-vertex
state. -/
theorem c10_duplicate_never_indexed_witness :
    (∃ st', add_edge wTrue stPN { git_url := "g/q", branch := "b" }
        { git_url := "g/u", branch := "b2" }
      = Except.ok (st', { git_url := "g/u", branch := "b2" })
      ∧ st'.repoNodes = stPN.repoNodes)
    ∧ (({ git_url := "g/u", branch := "b2" } : Node)
        ∉ lookupRepo (applyOps wTrue stPN []) "g/u"
      ∧ find_identical_node wTrue (applyOps wTrue stPN [])
          { git_url := "g/u", branch := "b2" }
        ≠ some { git_url := "g/u", branch := "b2" }) :=
  ⟨c10_duplicate_never_indexed.1 wTrue stPN { git_url := "g/q", branch := "b" }
     { git_url := "g/u", branch := "b2" } { git_url := "g/u", branch := "b" }
     { git_url := "g/p", branch := "b" } (by decide) (by decide) (by decide),
   c10_duplicate_never_indexed.2.2 wTrue stPN { git_url := "g/u", branch := "b2" }
     ⟨{ git_url := "g/u", branch := "b" }, by decide, by decide⟩ (by decide) []⟩

/-! ## Dockerfile parsing -/

/-- A line starting with a pattern starts with its first character. -/
theorem pyStartsWith_head (l p : String) (c : Char) (cs : List Char)
    (hp : p.toList = c :: cs) (h : pyStartsWith l p = true) :
    ∃ t, l.toList = c :: t := by
  simp only [pyStartsWith, decide_eq_true_eq] at h
  rw [hp] at h
  cases hl : l.toList with
  | nil => rw [hl] at h; simp at h
  | cons d t =>
    rw [hl] at h
    simp only [List.length_cons, List.take_succ_cons, List.cons.injEq] at h
    exact ⟨t, by rw [h.1]⟩

/-- A NAME directive line is not a FROM line. -/
theorem name_not_from (l : String) (h : pyStartsWith l "# NAME:" = true) :
    pyStartsWith l "FROM " = false := by
  obtain ⟨t, ht⟩ := pyStartsWith_head l "# NAME:" '#' [' ', 'N', 'A', 'M', 'E', ':'] rfl h
  have ht2 : l.data = '#' :: t := ht
  simp [pyStartsWith, ht2]

/-- A GIT directive line is not a FROM line. -/
theorem git_not_from (l : String) (h : pyStartsWith l "# GIT:" = true) :
    pyStartsWith l "FROM " = false := by
  obtain ⟨t, ht⟩ := pyStartsWith_head l "# GIT:" '#' [' ', 'G', 'I', 'T', ':'] rfl h
  have ht2 : l.data = '#' :: t := ht
  simp [pyStartsWith, ht2]

/-- What one parsed line does to the base image field: a FROM line sets it
(never to the empty string), every other line leaves it unchanged. -/
theorem parseLine_base (acc : ParsedDockerfile) (l : String) :
    (parseLine acc l).base_image
      = if pyStartsWith l "FROM " = true
        then (if pyContains (pyStrip (l.drop 5)) ':' then pyStrip (l.drop 5)
              else pyStrip (l.drop 5) ++ ":latest")
        else acc.base_image := by
  by_cases h1 : pyStartsWith l "# NAME:" = true
  · have hf := name_not_from l h1
    simp [parseLine, h1, hf]
  · by_cases h2 : pyStartsWith l "FROM " = true
    · simp [parseLine, h1, h2]
    · by_cases h3 : pyStartsWith l "# GIT:" = true
      · simp [parseLine, h1, h2, h3]
      · simp [parseLine, h1, h2, h3]

/-- The value a FROM line writes into the base image field is never the
empty string. -/
theorem from_value_ne_empty (l : String) :
    (if pyContains (pyStrip (l.drop 5)) ':' then pyStrip (l.drop 5)
     else pyStrip (l.drop 5) ++ ":latest") ≠ "" := by
  by_cases hc : pyContains (pyStrip (l.drop 5)) ':' = true
  · rw [if_pos hc]
    intro he
    rw [he] at hc
    exact absurd hc (by decide)
  · rw [if_neg hc]
    intro he
    have hlen := congrArg String.length he
    rw [String.length_append] at hlen
    have h7 : (":latest" : String).length = 7 := rfl
    have h0 : ("" : String).length = 0 := rfl
    rw [h7, h0] at hlen
    omega

/-- The scanned base image field is empty exactly when it started empty and
no line of the Dockerfile is a FROM line. -/
theorem scan_base_empty (lines : List String) :
    ∀ acc : ParsedDockerfile,
      ((lines.foldl parseLine acc).base_image = "" ↔
        (acc.base_image = "" ∧ ∀ l ∈ lines, pyStartsWith l "FROM " = false)) := by
  induction lines with
  | nil => intro acc; simp
  | cons l rest ih =>
    intro acc
    rw [List.foldl_cons, ih]
    by_cases hf : pyStartsWith l "FROM " = true
    · have hne : (parseLine acc l).base_image ≠ "" := by
        rw [parseLine_base, if_pos hf]
        exact from_value_ne_empty l
      constructor
      · intro hand
        exact absurd hand.1 hne
      · intro hand
        have := hand.2 l (List.mem_cons_self l rest)
        rw [hf] at this
        exact absurd this (by simp)
    · have heq : (parseLine acc l).base_image = acc.base_image := by
        rw [parseLine_base, if_neg hf]
      rw [heq]
      constructor
      · intro hand
        refine ⟨hand.1, fun m hm => ?_⟩
        rcases List.mem_cons.mp hm with h | h
        · rw [h]
          simpa using hf
        · exact hand.2 m h
      · intro hand
        exact ⟨hand.1, fun m hm => hand.2 m (List.mem_cons_of_mem l hm)⟩

/-- C8 counterexample: a Dockerfile whose name directive is present but has
a blank value, together with a well-formed FROM line.  Both directives are
present, yet the parse raises the LookupError for the name, refuting the
claim that a fatal error occurs only when a directive is absent. -/
theorem c8_counterexample_blank_name_directive :
    pyStartsWith "# NAME:" "# NAME:" = true
    ∧ pyStartsWith "FROM ubuntu:20.04" "FROM " = true
    ∧ parse_dockerfile ["# NAME:", "FROM ubuntu:20.04"]
        = Except.error "The name tag # NAME: is not found in the Dockerfile!" := by
  refine ⟨by decide, by decide, by rfl⟩

/-- C8 amended: the parse raises a fatal error exactly when the scanned
name is empty (the name directive absent or carrying a blank value) or no
FROM line is present (a FROM line always yields a non-empty base image);
when it succeeds it returns the scanned descriptor, and a node whose
declared upstream URL equals the descriptor's is a root exactly when that
URL is empty. -/
theorem c8_parse_error_iff (lines : List String) :
    ((∃ e, parse_dockerfile lines = Except.error e) ↔
      ((scanDockerfile lines).name = "" ∨ ∀ l ∈ lines, pyStartsWith l "FROM " = false))
    ∧ (∀ pd, parse_dockerfile lines = Except.ok pd →
        pd = scanDockerfile lines
        ∧ ∀ (w : World) (n : Node), w.baseUrl n.git_url n.branch = pd.git_url_base →
            (is_root w n = true ↔ pd.git_url_base = "")) := by
  have hbase : ((scanDockerfile lines).base_image = "" ↔
      ∀ l ∈ lines, pyStartsWith l "FROM " = false) := by
    rw [scanDockerfile, scan_base_empty]
    simp
  constructor
  · by_cases hn : (scanDockerfile lines).name = ""
    · constructor
      · intro _
        exact Or.inl hn
      · intro _
        refine ⟨"The name tag # NAME: is not found in the Dockerfile!", ?_⟩
        unfold parse_dockerfile
        rw [if_pos hn]
    · by_cases hb : (scanDockerfile lines).base_image = ""
      · constructor
        · intro _
          exact Or.inr (hbase.mp hb)
        · intro _
          refine ⟨"The FROM line is not found in the Dockerfile!", ?_⟩
          unfold parse_dockerfile
          rw [if_neg hn, if_pos hb]
      · constructor
        · intro he
          obtain ⟨e, he⟩ := he
          unfold parse_dockerfile at he
          rw [if_neg hn, if_neg hb] at he
          exact absurd he (by simp)
        · intro hor
          rcases hor with h | h
          · exact absurd h hn
          · exact absurd (hbase.mpr h) hb
  · intro pd hok
    have hpd : pd = scanDockerfile lines := by
      unfold parse_dockerfile at hok
      by_cases hn : (scanDockerfile lines).name = ""
      · rw [if_pos hn] at hok
        exact absurd hok (by simp)
      · rw [if_neg hn] at hok
        by_cases hb : (scanDockerfile lines).base_image = ""
        · rw [if_pos hb] at hok
          exact absurd hok (by simp)
        · rw [if_neg hb] at hok
          simpa using hok.symm
    refine ⟨hpd, fun w n hw => ?_⟩
    simp [is_root, hw]

/-- C8 witness: a Dockerfile with all three directives parses successfully
into the scanned descriptor, whose upstream URL g/u is non-empty, so a node
declaring it is not a root. -/
theorem c8_parse_witness :
    parse_dockerfile ["# NAME: img", "FROM ubuntu:20.04", "# GIT: g/u"]
      = Except.ok { name := "img", base_image := "ubuntu:20.04", git_url_base := "g/u" }
    ∧ (({ name := "img", base_image := "ubuntu:20.04", git_url_base := "g/u" } : ParsedDockerfile)
        = scanDockerfile ["# NAME: img", "FROM ubuntu:20.04", "# GIT: g/u"]
       ∧ ∀ (w : World) (n : Node),
          w.baseUrl n.git_url n.branch
            = ({ name := "img", base_image := "ubuntu:20.04", git_url_base := "g/u" } :
                ParsedDockerfile).git_url_base →
          (is_root w n = true ↔
            ({ name := "img", base_image := "ubuntu:20.04", git_url_base := "g/u" } :
                ParsedDockerfile).git_url_base = "")) :=
  ⟨by rfl,
   (c8_parse_error_iff ["# NAME: img", "FROM ubuntu:20.04", "# GIT: g/u"]).2
     { name := "img", base_image := "ubuntu:20.04", git_url_base := "g/u" } (by rfl)⟩

/-- C7: after a successful build with the given tag, tag_image applies
exactly the date-suffixed historical tag of the build tag and, for every
branch recorded in identical_branches, the mapped tag of that branch
followed by the mapped tag's date-suffixed variant; the mapping sends
master and main to latest, dev to next, and any other branch to itself,
and date-suffixing appends an underscore and the date string (the bare
date string for the empty and latest tags). -/
theorem c7_tagging_policy (mmddhh tag : String) (brs : List String)
    (at0 : List (String × String × Nat)) :
    tag_image mmddhh brs tag at0
      = at0 ++ [(tag_date mmddhh tag, "tag", 0)]
          ++ (brs.map (fun br =>
              [(branch_to_tag br, "tag", (0 : Nat)),
               (tag_date mmddhh (branch_to_tag br), "tag", 0)])).flatten
    ∧ (∀ b, branch_to_tag b = if b = "master" ∨ b = "main" then "latest"
        else if b = "dev" then "next" else b)
    ∧ (∀ t, tag_date mmddhh t = if t = "" ∨ t = "latest" then mmddhh
        else t ++ "_" ++ mmddhh) := by
  refine ⟨?_, fun b => rfl, fun t => rfl⟩
  rw [tag_image, tag_fold_append]
  simp [tag_image_1]

/-! ## C6: idempotence of adding one lineage -/

/-- Small record-projection facts for appendRepo. -/
theorem appendRepo_graphNodes (st : BuilderState) (u : String) (n : Node) :
    (appendRepo st u n).graphNodes = st.graphNodes := rfl

theorem appendRepo_graphEdges (st : BuilderState) (u : String) (n : Node) :
    (appendRepo st u n).graphEdges = st.graphEdges := rfl

theorem appendRepo_identBr (st : BuilderState) (u : String) (n : Node) :
    (appendRepo st u n).identBr = st.identBr := rfl

/-- Membership of an edge survives an extension. -/
theorem ext_edge_mem {s S : BuilderState} (h : Ext s S) {e : Node × Node}
    (he : e ∈ s.graphEdges) : e ∈ S.graphEdges := by
  obtain ⟨ex, hx⟩ := h.edges
  rw [hx]
  exact List.mem_append_left _ he

/-- A node with an incoming edge has a first predecessor. -/
theorem firstPred_isSome_of_edge (st : BuilderState) (a b : Node)
    (h : (a, b) ∈ st.graphEdges) : ∃ q, firstPred st b = some q := by
  unfold firstPred preds
  cases hl : (st.graphEdges.filter (fun e => e.2 = b)).map (fun e => e.1) with
  | nil =>
    exfalso
    have hm : (a, b) ∈ st.graphEdges.filter (fun e => e.2 = b) :=
      List.mem_filter.mpr ⟨h, by simp⟩
    have : a ∈ (st.graphEdges.filter (fun e => e.2 = b)).map (fun e => e.1) :=
      List.mem_map_of_mem _ hm
    rw [hl] at this
    simp at this
  | cons q t =>
    exact ⟨q, rfl⟩

/-- Resolution of a candidate whose repository list splits into known
non-matches followed by a match. -/
theorem find_identical_node_of_split (w : World) (S : BuilderState) (n x : Node)
    (l1 l2 : List Node)
    (hsplit : lookupRepo S n.git_url = l1 ++ x :: l2)
    (hnone : ∀ m ∈ l1,
      compare_git_branches w (w.pathOf n.git_url) m.branch n.branch = false)
    (hx : compare_git_branches w (w.pathOf n.git_url) x.branch n.branch = true) :
    find_identical_node w S n = some x := by
  unfold find_identical_node
  rw [hsplit]
  have hne : ¬(((l1 ++ x :: l2).isEmpty) = true) := by simp
  rw [if_neg hne, List.find?_append]
  rw [List.find?_eq_none.mpr (fun m hm => by simp [hnone m hm]),
    List.find?_cons_of_pos _ (by simpa using hx)]
  rfl

/-- The whole edge-adding fold only extends the state. -/
theorem foldDeps_ext (w : World) :
    ∀ (rest : List Node) (st : BuilderState) (prev : Node) (S : BuilderState) (pr : Node),
      foldDeps w rest st prev = Except.ok (S, pr) → Ext st S := by
  intro rest
  induction rest with
  | nil =>
    intro st prev S pr h
    simp only [foldDeps, Except.ok.injEq, Prod.mk.injEq] at h
    rw [← h.1]
    exact Ext.rfl st
  | cons dep rest ih =>
    intro st prev S pr h
    simp only [foldDeps] at h
    cases ha : add_edge w st prev dep with
    | error e => rw [ha] at h; exact absurd h (by simp)
    | ok r =>
      rw [ha] at h
      exact Ext.comp (ext_add_edge w st r.1 prev dep r.2 (by rw [ha])) (ih r.1 r.2 S pr h)

/-- Replaying add_root_node from any extension of its own result is a
no-op returning the same node. -/
theorem add_root_node_replay (w : World) (st : BuilderState) (n : Node)
    (s2 S : BuilderState) (p2 : Node)
    (ha : add_root_node w st n = (s2, p2)) (hext : Ext s2 S) :
    add_root_node w S n = (S, p2) := by
  cases hf : find_identical_node w st n with
  | some i =>
    rw [add_root_node_eq_reuse w st n i hf] at ha
    have hs2 : s2 = add_identical_branch st i n.branch := (Prod.mk.injEq _ _ _ _ ▸ ha).1.symm
    have hp2 : p2 = i := (Prod.mk.injEq _ _ _ _ ▸ ha).2.symm
    have hrepo : ∃ ex, lookupRepo S n.git_url = lookupRepo st n.git_url ++ ex := by
      obtain ⟨ex, he⟩ := hext.repo n.git_url
      rw [hs2, lookupRepo_aib] at he
      exact ⟨ex, he⟩
    have hfS : find_identical_node w S n = some i :=
      find_identical_node_extend w st S n i hf hrepo
    rw [add_root_node_eq_reuse w S n i hfS, hp2]
    have hnoop : add_identical_branch S i n.branch = S := by
      apply aib_noop
      by_cases hib : i.branch = n.branch
      · exact Or.inl hib
      · refine Or.inr (hext.ib i n.branch ?_)
        rw [hs2]
        exact aib_ib_self st i n.branch hib
    rw [hnoop]
  | none =>
    rw [add_root_node_eq_insert w st n hf] at ha
    have hs2 : s2 = { appendRepo (graphAddNode st n) n.git_url n with
        roots := (appendRepo (graphAddNode st n) n.git_url n).roots ++ [n] } :=
      (Prod.mk.injEq _ _ _ _ ▸ ha).1.symm
    have hp2 : p2 = n := (Prod.mk.injEq _ _ _ _ ▸ ha).2.symm
    have hs2repo : lookupRepo s2 n.git_url = lookupRepo st n.git_url ++ [n] := by
      rw [hs2]
      show lookupRepo (appendRepo (graphAddNode st n) n.git_url n) n.git_url = _
      rw [lookupRepo_appendRepo, if_pos rfl, lookupRepo_graphAddNode]
    obtain ⟨ex, hSrepo⟩ := hext.repo n.git_url
    rw [hs2repo] at hSrepo
    have hfS : find_identical_node w S n = some n := by
      refine find_identical_node_of_split w S n n (lookupRepo st n.git_url) ex ?_
        (find_identical_node_none w st n hf) (compare_git_branches_refl w _ _)
      rw [hSrepo, List.append_assoc]
      rfl
    rw [add_root_node_eq_reuse w S n n hfS, hp2]
    rw [aib_noop S n n.branch (Or.inl rfl)]

/-- Replaying add_edge from any extension of its own result is a no-op
returning the same node. -/
theorem add_edge_replay (w : World) (st : BuilderState) (prev dep : Node)
    (s2 S : BuilderState) (p2 : Node)
    (ha : add_edge w st prev dep = Except.ok (s2, p2)) (hext : Ext s2 S) :
    add_edge w S prev dep = Except.ok (S, p2) := by
  cases hf : find_identical_node w st dep with
  | none =>
    rw [add_edge_eq_insert w st prev dep hf] at ha
    simp only [Except.ok.injEq, Prod.mk.injEq] at ha
    have hs2 : s2 = appendRepo (graphAddEdge st prev dep) dep.git_url dep := ha.1.symm
    have hp2 : p2 = dep := ha.2.symm
    have hs2repo : lookupRepo s2 dep.git_url = lookupRepo st dep.git_url ++ [dep] := by
      rw [hs2, lookupRepo_appendRepo, if_pos rfl, lookupRepo_graphAddEdge]
    obtain ⟨ex, hSrepo⟩ := hext.repo dep.git_url
    rw [hs2repo] at hSrepo
    have hfS : find_identical_node w S dep = some dep := by
      refine find_identical_node_of_split w S dep dep (lookupRepo st dep.git_url) ex ?_
        (find_identical_node_none w st dep hf) (compare_git_branches_refl w _ _)
      rw [hSrepo, List.append_assoc]
      rfl
    have hedge : (prev, dep) ∈ S.graphEdges := by
      refine ext_edge_mem hext ?_
      rw [hs2]
      show (prev, dep) ∈ (graphAddEdge st prev dep).graphEdges
      exact mem_graphAddEdge_self st prev dep
    have hprevS : prev ∈ S.graphNodes := by
      refine hext.nodes prev ?_
      rw [hs2]
      show prev ∈ (graphAddEdge st prev dep).graphNodes
      exact mem_graphAddEdge_left st prev dep
    have hdepS : dep ∈ S.graphNodes := by
      refine hext.nodes dep ?_
      rw [hs2]
      show dep ∈ (graphAddEdge st prev dep).graphNodes
      exact mem_graphAddEdge_right st prev dep
    obtain ⟨q, hq⟩ := firstPred_isSome_of_edge S prev dep hedge
    by_cases hqp : q = prev
    · rw [hqp] at hq
      rw [add_edge_eq_reuse w S prev dep dep hfS hq, hp2]
      rw [aib_noop S dep dep.branch (Or.inl rfl)]
    · rw [add_edge_eq_dup w S prev dep dep q hfS hq hqp, hp2]
      rw [graphAddEdge_noop S prev dep hprevS hdepS hedge]
  | some i =>
    cases hp : firstPred st i with
    | none =>
      rw [add_edge_eq_stop w st prev dep i hf hp] at ha
      exact absurd ha (by simp)
    | some p =>
      by_cases hne : p ≠ prev
      · rw [add_edge_eq_dup w st prev dep i p hf hp hne] at ha
        simp only [Except.ok.injEq, Prod.mk.injEq] at ha
        have hs2 : s2 = graphAddEdge st prev dep := ha.1.symm
        have hp2 : p2 = dep := ha.2.symm
        have hfS : find_identical_node w S dep = some i := by
          refine find_identical_node_extend w st S dep i hf ?_
          obtain ⟨ex, he⟩ := hext.repo dep.git_url
          rw [hs2, lookupRepo_graphAddEdge] at he
          exact ⟨ex, he⟩
        have hpS : firstPred S i = some p := by
          refine firstPred_extend st S i p hp ?_
          obtain ⟨e1, he1⟩ := graphAddEdge_edges_extend st prev dep
          obtain ⟨e2, he2⟩ := hext.edges
          rw [hs2, he1] at he2
          exact ⟨e1 ++ e2, by rw [he2, List.append_assoc]⟩
        rw [add_edge_eq_dup w S prev dep i p hfS hpS hne, hp2]
        have hedge : (prev, dep) ∈ S.graphEdges := by
          refine ext_edge_mem hext ?_
          rw [hs2]
          exact mem_graphAddEdge_self st prev dep
        have hprevS : prev ∈ S.graphNodes := by
          refine hext.nodes prev ?_
          rw [hs2]
          exact mem_graphAddEdge_left st prev dep
        have hdepS : dep ∈ S.graphNodes := by
          refine hext.nodes dep ?_
          rw [hs2]
          exact mem_graphAddEdge_right st prev dep
        rw [graphAddEdge_noop S prev dep hprevS hdepS hedge]
      · have hpp : p = prev := not_not.mp hne
        rw [hpp] at hp
        rw [add_edge_eq_reuse w st prev dep i hf hp] at ha
        simp only [Except.ok.injEq, Prod.mk.injEq] at ha
        have hs2 : s2 = add_identical_branch st i dep.branch := ha.1.symm
        have hp2 : p2 = i := ha.2.symm
        have hfS : find_identical_node w S dep = some i := by
          refine find_identical_node_extend w st S dep i hf ?_
          obtain ⟨ex, he⟩ := hext.repo dep.git_url
          rw [hs2, lookupRepo_aib] at he
          exact ⟨ex, he⟩
        have hpS : firstPred S i = some prev := by
          refine firstPred_extend st S i prev hp ?_
          obtain ⟨e2, he2⟩ := hext.edges
          rw [hs2, aib_graphEdges] at he2
          exact ⟨e2, he2⟩
        rw [add_edge_eq_reuse w S prev dep i hfS hpS, hp2]
        have hnoop : add_identical_branch S i dep.branch = S := by
          apply aib_noop
          by_cases hib : i.branch = dep.branch
          · exact Or.inl hib
          · refine Or.inr (hext.ib i dep.branch ?_)
            rw [hs2]
            exact aib_ib_self st i dep.branch hib
        rw [hnoop]

/-- Replaying the whole fold from its own final state is a no-op. -/
theorem foldDeps_replay (w : World) :
    ∀ (rest : List Node) (st : BuilderState) (prev : Node) (S : BuilderState) (pr : Node),
      foldDeps w rest st prev = Except.ok (S, pr) →
      foldDeps w rest S prev = Except.ok (S, pr) := by
  intro rest
  induction rest with
  | nil =>
    intro st prev S pr h
    simp only [foldDeps, Except.ok.injEq, Prod.mk.injEq] at h ⊢
    exact ⟨trivial, h.2⟩
  | cons dep rest ih =>
    intro st prev S pr h
    simp only [foldDeps] at h ⊢
    cases ha : add_edge w st prev dep with
    | error e => rw [ha] at h; exact absurd h (by simp)
    | ok r =>
      rw [ha] at h
      have hextSr : Ext r.1 S := foldDeps_ext w rest r.1 r.2 S pr h
      have hreplay := add_edge_replay w st prev dep r.1 S r.2 (by rw [ha]) hextSr
      rw [hreplay]
      exact ih r.1 r.2 S pr h

/-- The shape of processUrl when the walk returns a chain headed by a
root. -/
theorem processUrl_eq_root (w : World) (fuel : Nat) (branch url : String)
    (st : BuilderState) (dep0 : Node) (rest : List Node)
    (hd : get_deps w st.graphNodes fuel { git_url := url, branch := branch }
      = some (dep0 :: rest))
    (hr : is_root w dep0 = true) :
    processUrl w fuel branch url st
      = (foldDeps w rest (add_root_node w st dep0).1 (add_root_node w st dep0).2).map
          (fun r => r.1) := by
  unfold processUrl
  rw [hd]
  show (if is_root w dep0 then _ else _) = _
  rw [if_pos hr]

/-- C6: processing the same (branch, url) request twice produces exactly
the state of processing it once: the second run finds the same chain (the
walk does not depend on the graph), resolves every element to the vertex
the first run created or reused, and changes nothing.  In particular the
vertex set, the edge set and every identical_branches set are unchanged by
the repetition. -/
theorem c6_processUrl_idempotent (w : World) (fuel : Nat) (branch url : String)
    (st s1 : BuilderState)
    (h : processUrl w fuel branch url st = Except.ok s1) :
    processUrl w fuel branch url s1 = Except.ok s1 := by
  cases hd : get_deps w st.graphNodes fuel { git_url := url, branch := branch } with
  | none =>
    have : processUrl w fuel branch url st = Except.error BuildErr.outOfFuel := by
      unfold processUrl
      rw [hd]
    rw [this] at h
    exact absurd h (by simp)
  | some l =>
    cases l with
    | nil =>
      have : processUrl w fuel branch url st = Except.error BuildErr.assertionError := by
        unfold processUrl
        rw [hd]
      rw [this] at h
      exact absurd h (by simp)
    | cons dep0 rest =>
      obtain ⟨d, r2, hcons, hroot⟩ :=
        get_deps_head_root w st.graphNodes fuel { git_url := url, branch := branch }
          (dep0 :: rest) hd
      have hd0 : dep0 = d := by
        injection hcons
      rw [← hd0] at hroot
      have hri : is_root w dep0 = true := by
        simp [is_root, hroot]
      have hd1 : get_deps w s1.graphNodes fuel { git_url := url, branch := branch }
          = some (dep0 :: rest) := by
        rw [get_deps_indep w s1.graphNodes st.graphNodes]
        exact hd
      rw [processUrl_eq_root w fuel branch url st dep0 rest hd hri] at h
      cases hfold : foldDeps w rest (add_root_node w st dep0).1
          (add_root_node w st dep0).2 with
      | error e =>
        rw [hfold] at h
        exact absurd h (by simp [Except.map])
      | ok r =>
        rw [hfold] at h
        have hr1 : r.1 = s1 := by
          simpa [Except.map] using h
        have hextr : Ext (add_root_node w st dep0).1 r.1 :=
          foldDeps_ext w rest (add_root_node w st dep0).1 (add_root_node w st dep0).2
            r.1 r.2 (by rw [hfold])
        have har : add_root_node w s1 dep0 = (s1, (add_root_node w st dep0).2) := by
          rw [← hr1]
          exact add_root_node_replay w st dep0 (add_root_node w st dep0).1 r.1
            (add_root_node w st dep0).2 rfl hextr
        have hfold2 : foldDeps w rest s1 (add_root_node w st dep0).2
            = Except.ok (r.1, r.2) := by
          rw [← hr1]
          exact foldDeps_replay w rest (add_root_node w st dep0).1
            (add_root_node w st dep0).2 r.1 r.2 (by rw [hfold])
        rw [processUrl_eq_root w fuel branch url s1 dep0 rest hd1 hri, har]
        show (foldDeps w rest s1 (add_root_node w st dep0).2).map (fun r => r.1)
          = Except.ok s1
        rw [hfold2]
        show Except.ok r.1 = Except.ok s1
        rw [hr1]

/-- C6 witness: processing (b, g/u) once from the empty state under the
all-different world succeeds, and processing it again returns the same
state unchanged. -/
theorem c6_processUrl_idempotent_witness :
    processUrl wFalse 3 "b" "g/u" emptyState = Except.ok stRootU
    ∧ processUrl wFalse 3 "b" "g/u" stRootU = Except.ok stRootU :=
  ⟨by rfl, c6_processUrl_idempotent wFalse 3 "b" "g/u" emptyState stRootU (by rfl)⟩


/-! ## C3: equivalence merge for two zero-diff branches -/

/-- A walk started at a root repository returns the singleton chain. -/
theorem get_deps_root (w : World) (rb : List Node) (f : Nat) (n : Node)
    (h : w.baseUrl n.git_url n.branch = "") :
    get_deps w rb (f + 1) n = some [n] := by
  unfold get_deps
  rw [tupleMemNodes_false]
  simp [h]

/-- C3 counterexample: for the root repository g/u with the zero-diff
branches b1 and b2, adding both lineages leaves one vertex whose
equivalent-branch set is exactly the singleton of b2: the primary branch b1
is never recorded in the set, refuting the claim that the set contains both
branch names. -/
theorem c3_counterexample_primary_branch_not_in_set :
    ((processUrl wTrue 3 "b1" "g/u" emptyState).toOption.bind
      (fun s1 => (processUrl wTrue 3 "b2" "g/u" s1).toOption)).map
      (fun s2 => (ibLookup s2 { git_url := "g/u", branch := "b1" },
        (s2.graphNodes.filter (fun m => m.git_url == "g/u")).length))
      = some (["b2"], 1)
    ∧ "b1" ∉ (["b2"] : List String) :=
  ⟨by rfl, by decide⟩

/-- C3 amended: for two distinct branches of one root repository whose
checked-out content has zero diff, adding both lineages yields a graph with
exactly one vertex for that repository; the vertex carries the first branch
as its primary branch and its equivalent-branch set is exactly the
singleton of the second branch, so the two names are recorded between the
vertex and its set (the primary branch itself is never inserted into the
set). -/
theorem c3_equivalence_merge_amended (w : World) (u b1 b2 : String) (f : Nat)
    (hne : b1 ≠ b2) (h1 : w.baseUrl u b1 = "") (h2 : w.baseUrl u b2 = "")
    (hdiff : w.diffEmpty (w.pathOf u) b1 b2 = true) :
    ∃ s1 s2,
      processUrl w (f + 1) b1 u emptyState = Except.ok s1
      ∧ processUrl w (f + 1) b2 u s1 = Except.ok s2
      ∧ s2.graphNodes = [{ git_url := u, branch := b1 }]
      ∧ ibLookup s2 { git_url := u, branch := b1 } = [b2] := by
  refine ⟨{ graphNodes := [{ git_url := u, branch := b1 }], graphEdges := [], identBr := [],
            repoNodes := [(u, [{ git_url := u, branch := b1 }])],
            roots := [{ git_url := u, branch := b1 }] },
          { graphNodes := [{ git_url := u, branch := b1 }], graphEdges := [],
            identBr := [({ git_url := u, branch := b1 }, [b2])],
            repoNodes := [(u, [{ git_url := u, branch := b1 }])],
            roots := [{ git_url := u, branch := b1 }] }, ?_, ?_, rfl, ?_⟩
  · have hd1 : get_deps w emptyState.graphNodes (f + 1) { git_url := u, branch := b1 }
        = some [{ git_url := u, branch := b1 }] :=
      get_deps_root w _ f _ h1
    have hri1 : is_root w { git_url := u, branch := b1 } = true := by
      simp [is_root, h1]
    rw [processUrl_eq_root w (f + 1) b1 u emptyState _ [] hd1 hri1]
    have hfind1 : find_identical_node w emptyState { git_url := u, branch := b1 }
        = none := rfl
    rw [add_root_node_eq_insert w emptyState _ hfind1]
    rfl
  · have hd2 : get_deps w
        ({ graphNodes := [{ git_url := u, branch := b1 }], graphEdges := [], identBr := [],
           repoNodes := [(u, [{ git_url := u, branch := b1 }])],
           roots := [{ git_url := u, branch := b1 }] } : BuilderState).graphNodes
        (f + 1) { git_url := u, branch := b2 }
        = some [{ git_url := u, branch := b2 }] :=
      get_deps_root w _ f _ h2
    have hri2 : is_root w { git_url := u, branch := b2 } = true := by
      simp [is_root, h2]
    rw [processUrl_eq_root w (f + 1) b2 u _ _ [] hd2 hri2]
    have hlook : lookupRepo
        { graphNodes := [{ git_url := u, branch := b1 }], graphEdges := [], identBr := [],
          repoNodes := [(u, [{ git_url := u, branch := b1 }])],
          roots := [{ git_url := u, branch := b1 }] } u
        = [{ git_url := u, branch := b1 }] := by
      show repoFind [(u, [{ git_url := u, branch := b1 }])] u = _
      unfold repoFind
      rw [if_pos rfl]
    have hpred : compare_git_branches w (w.pathOf u) b1 b2 = true := by
      simp [compare_git_branches, hdiff]
    have hfind2 : find_identical_node w
        { graphNodes := [{ git_url := u, branch := b1 }], graphEdges := [], identBr := [],
          repoNodes := [(u, [{ git_url := u, branch := b1 }])],
          roots := [{ git_url := u, branch := b1 }] }
        { git_url := u, branch := b2 } = some { git_url := u, branch := b1 } := by
      unfold find_identical_node
      show (if (lookupRepo _ u).isEmpty then none
            else (lookupRepo _ u).find? _) = _
      rw [hlook]
      rw [if_neg (by simp)]
      rw [List.find?_cons_of_pos _ (by simpa using hpred)]
    rw [add_root_node_eq_reuse w _ _ _ hfind2]
    have haib : add_identical_branch
        { graphNodes := [{ git_url := u, branch := b1 }], graphEdges := [], identBr := [],
          repoNodes := [(u, [{ git_url := u, branch := b1 }])],
          roots := [{ git_url := u, branch := b1 }] }
        { git_url := u, branch := b1 } b2
        = { graphNodes := [{ git_url := u, branch := b1 }], graphEdges := [],
            identBr := [({ git_url := u, branch := b1 }, [b2])],
            repoNodes := [(u, [{ git_url := u, branch := b1 }])],
            roots := [{ git_url := u, branch := b1 }] } := by
      unfold add_identical_branch
      rw [if_neg (show ¬(({ git_url := u, branch := b1 } : Node).branch = b2) from hne)]
      rfl
    rw [haib]
    rfl
  · show ibFind [({ git_url := u, branch := b1 }, [b2])] { git_url := u, branch := b1 } = [b2]
    unfold ibFind
    rw [if_pos rfl]

/-- C3 witness: the amended statement at the concrete zero-diff world. -/
theorem c3_equivalence_merge_witness :
    ∃ s1 s2,
      processUrl wTrue (2 + 1) "b1" "g/u" emptyState = Except.ok s1
      ∧ processUrl wTrue (2 + 1) "b2" "g/u" s1 = Except.ok s2
      ∧ s2.graphNodes = [{ git_url := "g/u", branch := "b1" }]
      ∧ ibLookup s2 { git_url := "g/u", branch := "b1" } = ["b2"] :=
  c3_equivalence_merge_amended wTrue "g/u" "b1" "b2" 2
    (by decide) (by decide) (by decide) (by decide)


/-! ## C4: the build traversal -/

/-- Writing attributes for a node makes them readable. -/
theorem attrFind_attrSet_self (l : List (Node × NodeBuildAttr)) (n : Node)
    (a : NodeBuildAttr) : attrFind (attrSet l n a) n = some a := by
  induction l with
  | nil => simp [attrSet, attrFind]
  | cons p rest ih =>
    simp only [attrSet]
    by_cases hp : p.1 = n
    · rw [if_pos hp]
      simp [attrFind]
    · rw [if_neg hp]
      simp only [attrFind]
      rw [if_neg hp, ih]

/-- Writing attributes for one node does not touch the others. -/
theorem attrFind_attrSet_other (l : List (Node × NodeBuildAttr)) (n : Node)
    (a : NodeBuildAttr) (m : Node) (hm : m ≠ n) :
    attrFind (attrSet l n a) m = attrFind l m := by
  induction l with
  | nil =>
    simp only [attrSet, attrFind]
    rw [if_neg (fun h => hm h.symm)]
  | cons p rest ih =>
    simp only [attrSet]
    by_cases hp : p.1 = n
    · rw [if_pos hp]
      simp only [attrFind]
      rw [if_neg (fun h => hm h.symm),
        if_neg (by rw [hp]; exact fun h => hm h.symm)]
    · rw [if_neg hp]
      simp only [attrFind]
      by_cases hpm : p.1 = m
      · rw [if_pos hpm, if_pos hpm]
      · rw [if_neg hpm, if_neg hpm, ih]

/-- The attributes recorded by build_image_node for the node itself. -/
theorem bin_attr_self (env : BuildEnv) (n : Node) (ts : TState) :
    attrLookup (build_image_node env n ts) n = some (recordOf env n) :=
  attrFind_attrSet_self ts.attr n (recordOf env n)

/-- build_image_node leaves the attributes of the other nodes unchanged. -/
theorem bin_attr_other (env : BuildEnv) (n : Node) (ts : TState) (m : Node)
    (hm : m ≠ n) :
    attrLookup (build_image_node env n ts) m = attrLookup ts m :=
  attrFind_attrSet_other ts.attr n (recordOf env n) m hm

/-- build_image_node leaves the failures list unchanged. -/
theorem bin_failures (env : BuildEnv) (n : Node) (ts : TState) :
    (build_image_node env n ts).failures = ts.failures := rfl

/-- Recorded attributes survive build_image_node. -/
theorem bin_attr_mono (env : BuildEnv) (n : Node) (ts : TState) (m : Node)
    (h : (attrLookup ts m).isSome) :
    (attrLookup (build_image_node env n ts) m).isSome := by
  by_cases hm : m = n
  · rw [hm, bin_attr_self]
    rfl
  · rw [bin_attr_other env n ts m hm]
    exact h

/-- Any attribute value present after build_image_node was present before
or is the record of its node. -/
theorem bin_attr_char (env : BuildEnv) (n : Node) (ts : TState) (m : Node)
    (a : NodeBuildAttr) (h : attrLookup (build_image_node env n ts) m = some a) :
    attrLookup ts m = some a ∨ a = recordOf env m := by
  by_cases hm : m = n
  · subst hm
    rw [bin_attr_self] at h
    exact Or.inr (Option.some_inj.mp h).symm
  · rw [bin_attr_other env n ts m hm] at h
    exact Or.inl h

/-- The two claim-relevant fields of the recorded attributes. -/
theorem recordOf_fields (env : BuildEnv) (n : Node) :
    (recordOf env n).build_succeed = (env.builds n).succeed
    ∧ (recordOf env n).build_err_msg = (env.builds n).err_msg := by
  unfold recordOf
  by_cases hs : (env.builds n).succeed = true
  · rw [if_pos hs]
    exact ⟨hs.symm, rfl⟩
  · rw [if_neg hs]
    exact ⟨(Bool.not_eq_true _ ▸ hs : _).symm, rfl⟩

/-- Membership in the successors list is membership of the edge. -/
theorem succs_mem (env : BuildEnv) (n c : Node) :
    c ∈ successors env n ↔ (n, c) ∈ env.edges := by
  unfold successors
  constructor
  · intro h
    obtain ⟨e, he, hc⟩ := List.mem_map.mp h
    have := List.mem_filter.mp he
    have h1 : e.1 = n := by simpa using this.2
    have : e = (n, c) := by
      rw [← h1, ← hc]
    rw [← this]
    exact (List.mem_filter.mp he).1
  · intro h
    refine List.mem_map.mpr ⟨(n, c), List.mem_filter.mpr ⟨h, by simp⟩, rfl⟩

/-- Nothing is attempted from an empty root list. -/
theorem attempted_nil (env : BuildEnv) (m : Node) (h : Attempted env [] m) : False := by
  induction h with
  | root n hn => simp at hn
  | step p c _ _ _ ih => exact ih

/-- Being attempted from a longer root list splits. -/
theorem attempted_cons (env : BuildEnv) (n : Node) (rest : List Node) (m : Node)
    (h : Attempted env (n :: rest) m) :
    Attempted env [n] m ∨ Attempted env rest m := by
  induction h with
  | root r hr =>
    rcases List.mem_cons.mp hr with h | h
    · exact Or.inl (Attempted.root r (by rw [h]; exact List.mem_singleton_self n))
    · exact Or.inr (Attempted.root r h)
  | step p c _ hs he ih =>
    rcases ih with h | h
    · exact Or.inl (Attempted.step p c h hs he)
    · exact Or.inr (Attempted.step p c h hs he)

/-- From a singleton root list, everything attempted is the root or comes
through its successors. -/
theorem attempted_single_split (env : BuildEnv) (n m : Node)
    (h : Attempted env [n] m) :
    m = n ∨ Attempted env (successors env n) m := by
  induction h with
  | root r hr =>
    exact Or.inl (List.mem_singleton.mp hr)
  | step p c _ hs he ih =>
    rcases ih with h | h
    · rw [h] at he hs
      exact Or.inr (Attempted.root c ((succs_mem env n c).mpr he))
    · exact Or.inr (Attempted.step p c h hs he)

/-- A non-root node attempted from a singleton needs the root to have
succeeded. -/
theorem attempted_single_succeed (env : BuildEnv) (n m : Node)
    (h : Attempted env [n] m) :
    m = n ∨ (env.builds n).succeed = true := by
  induction h with
  | root r hr => exact Or.inl (List.mem_singleton.mp hr)
  | step p c _ hs _ ih =>
    rcases ih with h | h
    · rw [h] at hs
      exact Or.inr hs
    · exact Or.inr h


/-- Changing the failures list does not change the attributes. -/
theorem attrLookup_setFailures (ts : TState) (F : List Node) (m : Node) :
    attrLookup { ts with failures := F } m = attrLookup ts m := rfl

/-- Widening the root list preserves being attempted. -/
theorem attempted_mono (env : BuildEnv) {l l' : List Node}
    (hsub : ∀ x ∈ l, x ∈ l') {m : Node} (h : Attempted env l m) :
    Attempted env l' m := by
  induction h with
  | root r hr => exact .root r (hsub r hr)
  | step p c _ hs he ih => exact .step p c ih hs he

/-- Being attempted below the successors of a succeeded node lifts to being
attempted below the node. -/
theorem attempted_lift (env : BuildEnv) (n m : Node)
    (h : Attempted env (successors env n) m)
    (hs : (env.builds n).succeed = true) : Attempted env [n] m := by
  induction h with
  | root r hr =>
    exact .step n r (.root n (List.mem_singleton_self n)) hs ((succs_mem env n r).mp hr)
  | step p c _ hsp he ih => exact .step p c ih hsp he

/-- The combined bookkeeping facts of the traversal, by induction on the
fuel: recorded attributes are never erased, every traversed node ends up
recorded, every recorded value is the record of its node, every fresh
record belongs to an attempted node, and the failures list stays in sync
with the recorded failing attributes. -/
theorem trav_master (env : BuildEnv) : ∀ fuel : Nat,
    (∀ n ts ts', travNode env fuel n ts = some ts' →
      (∀ m, (attrLookup ts m).isSome → (attrLookup ts' m).isSome)
      ∧ (attrLookup ts' n).isSome
      ∧ (∀ m a, attrLookup ts' m = some a →
          attrLookup ts m = some a ∨ a = recordOf env m)
      ∧ (∀ m, (attrLookup ts' m).isSome →
          (attrLookup ts m).isSome ∨ Attempted env [n] m)
      ∧ ((∀ m, m ∈ ts.failures ↔
            ((attrLookup ts m).isSome ∧ (env.builds m).succeed = false)) →
         (∀ m, m ∈ ts'.failures ↔
            ((attrLookup ts' m).isSome ∧ (env.builds m).succeed = false))))
    ∧ (∀ l ts ts', travList env fuel l ts = some ts' →
      (∀ m, (attrLookup ts m).isSome → (attrLookup ts' m).isSome)
      ∧ (∀ n ∈ l, (attrLookup ts' n).isSome)
      ∧ (∀ m a, attrLookup ts' m = some a →
          attrLookup ts m = some a ∨ a = recordOf env m)
      ∧ (∀ m, (attrLookup ts' m).isSome →
          (attrLookup ts m).isSome ∨ Attempted env l m)
      ∧ ((∀ m, m ∈ ts.failures ↔
            ((attrLookup ts m).isSome ∧ (env.builds m).succeed = false)) →
         (∀ m, m ∈ ts'.failures ↔
            ((attrLookup ts' m).isSome ∧ (env.builds m).succeed = false)))) := by
  intro fuel
  induction fuel with
  | zero =>
    constructor
    · intro n ts ts' h
      exact absurd h (by simp [travNode])
    · intro l
      induction l with
      | nil =>
        intro ts ts' h
        simp only [travList, travListWith, Option.some_inj] at h
        subst h
        exact ⟨fun m hm => hm, by simp, fun m a ha => Or.inl ha,
          fun m hm => Or.inl hm, fun hF => hF⟩
      | cons n rest ihl =>
        intro ts ts' h
        have hz : travList env 0 (n :: rest) ts = none := by
          simp [travList, travListWith, travNode]
        rw [hz] at h
        exact absurd h (by simp)
  | succ f ihf =>
    obtain ⟨ihnode, ihlist⟩ := ihf
    have heqN : ∀ n ts, travNode env (f + 1) n ts
        = if (env.builds n).succeed then
            travList env f (successors env n) (build_image_node env n ts)
          else
            some { build_image_node env n ts with
                   failures := (build_image_node env n ts).failures ++ [n] } := by
      intro n ts
      simp only [travNode, travList]
    have hnode : ∀ n ts ts', travNode env (f + 1) n ts = some ts' →
        (∀ m, (attrLookup ts m).isSome → (attrLookup ts' m).isSome)
        ∧ (attrLookup ts' n).isSome
        ∧ (∀ m a, attrLookup ts' m = some a →
            attrLookup ts m = some a ∨ a = recordOf env m)
        ∧ (∀ m, (attrLookup ts' m).isSome →
            (attrLookup ts m).isSome ∨ Attempted env [n] m)
        ∧ ((∀ m, m ∈ ts.failures ↔
              ((attrLookup ts m).isSome ∧ (env.builds m).succeed = false)) →
           (∀ m, m ∈ ts'.failures ↔
              ((attrLookup ts' m).isSome ∧ (env.builds m).succeed = false))) := by
      intro n ts ts' h
      rw [heqN n ts] at h
      by_cases hs : (env.builds n).succeed = true
      · rw [if_pos hs] at h
        obtain ⟨L1, L2, L3, L4, L5⟩ :=
          ihlist (successors env n) (build_image_node env n ts) ts' h
        refine ⟨?_, ?_, ?_, ?_, ?_⟩
        · intro m hm
          exact L1 m (bin_attr_mono env n ts m hm)
        · refine L1 n ?_
          rw [bin_attr_self]
          rfl
        · intro m a ha
          rcases L3 m a ha with h1 | h1
          · exact bin_attr_char env n ts m a h1
          · exact Or.inr h1
        · intro m hm
          rcases L4 m hm with h1 | h1
          · by_cases hmn : m = n
            · exact Or.inr (Attempted.root m (by rw [hmn]; exact List.mem_singleton_self n))
            · rw [bin_attr_other env n ts m hmn] at h1
              exact Or.inl h1
          · exact Or.inr (attempted_lift env n m h1 hs)
        · intro hF
          apply L5
          intro m
          rw [bin_failures]
          by_cases hmn : m = n
          · subst hmn
            constructor
            · intro hmem
              exact absurd ((hF m).mp hmem).2 (by simp [hs])
            · intro hr
              exact absurd hr.2 (by simp [hs])
          · rw [bin_attr_other env n ts m hmn]
            exact hF m
      · rw [if_neg hs] at h
        have hts' : ts' = { build_image_node env n ts with
            failures := (build_image_node env n ts).failures ++ [n] } :=
          (Option.some_inj.mp h).symm
        subst hts'
        refine ⟨?_, ?_, ?_, ?_, ?_⟩
        · intro m hm
          rw [attrLookup_setFailures]
          exact bin_attr_mono env n ts m hm
        · rw [attrLookup_setFailures, bin_attr_self]
          rfl
        · intro m a ha
          rw [attrLookup_setFailures] at ha
          exact bin_attr_char env n ts m a ha
        · intro m hm
          rw [attrLookup_setFailures] at hm
          by_cases hmn : m = n
          · exact Or.inr (Attempted.root m (by rw [hmn]; exact List.mem_singleton_self n))
          · rw [bin_attr_other env n ts m hmn] at hm
            exact Or.inl hm
        · intro hF m
          show m ∈ (build_image_node env n ts).failures ++ [n] ↔ _
          rw [bin_failures, attrLookup_setFailures]
          rw [List.mem_append, List.mem_singleton]
          by_cases hmn : m = n
          · subst hmn
            constructor
            · intro _
              constructor
              · rw [bin_attr_self]
                rfl
              · simpa using hs
            · intro _
              exact Or.inr rfl
          · rw [bin_attr_other env n ts m hmn]
            constructor
            · intro hmem
              rcases hmem with hmem | hmem
              · exact (hF m).mp hmem
              · exact absurd hmem hmn
            · intro hr
              exact Or.inl ((hF m).mpr hr)
    constructor
    · exact hnode
    · intro l
      induction l with
      | nil =>
        intro ts ts' h
        simp only [travList, travListWith, Option.some_inj] at h
        subst h
        exact ⟨fun m hm => hm, by simp, fun m a ha => Or.inl ha,
          fun m hm => Or.inl hm, fun hF => hF⟩
      | cons n rest ihl =>
        intro ts ts' h
        have heqL : travList env (f + 1) (n :: rest) ts
            = match travNode env (f + 1) n ts with
              | none => none
              | some t => travList env (f + 1) rest t := by
          simp only [travList, travListWith]
        rw [heqL] at h
        cases hn : travNode env (f + 1) n ts with
        | none =>
          rw [hn] at h
          exact absurd h (by simp)
        | some ts1 =>
          rw [hn] at h
          obtain ⟨N1, N2, N3, N4, N5⟩ := hnode n ts ts1 hn
          obtain ⟨R1, R2, R3, R4, R5⟩ := ihl ts1 ts' h
          refine ⟨fun m hm => R1 m (N1 m hm), ?_, ?_, ?_, fun hF => R5 (N5 hF)⟩
          · intro x hx
            rcases List.mem_cons.mp hx with hx | hx
            · rw [hx]
              exact R1 n N2
            · exact R2 x hx
          · intro m a ha
            rcases R3 m a ha with h1 | h1
            · exact N3 m a h1
            · exact Or.inr h1
          · intro m hm
            rcases R4 m hm with h1 | h1
            · rcases N4 m h1 with h2 | h2
              · exact Or.inl h2
              · exact Or.inr (attempted_mono env
                  (fun x hx => by rw [List.mem_singleton.mp hx]; exact List.mem_cons_self n rest) h2)
            · exact Or.inr (attempted_mono env
                (fun x hx => List.mem_cons_of_mem n hx) h1)


/-- Completeness of the traversal: every node attempted from the processed
roots ends up with recorded attributes. -/
theorem trav_complete (env : BuildEnv) : ∀ fuel : Nat,
    (∀ n ts ts', travNode env fuel n ts = some ts' →
      ∀ m, Attempted env [n] m → (attrLookup ts' m).isSome)
    ∧ (∀ l ts ts', travList env fuel l ts = some ts' →
      ∀ m, Attempted env l m → (attrLookup ts' m).isSome) := by
  intro fuel
  induction fuel with
  | zero =>
    constructor
    · intro n ts ts' h
      exact absurd h (by simp [travNode])
    · intro l
      induction l with
      | nil =>
        intro ts ts' h m hm
        exact (attempted_nil env m hm).elim
      | cons n rest ihl =>
        intro ts ts' h
        have hz : travList env 0 (n :: rest) ts = none := by
          simp [travList, travListWith, travNode]
        rw [hz] at h
        exact absurd h (by simp)
  | succ f ihf =>
    obtain ⟨ihnode, ihlist⟩ := ihf
    have heqN : ∀ n ts, travNode env (f + 1) n ts
        = if (env.builds n).succeed then
            travList env f (successors env n) (build_image_node env n ts)
          else
            some { build_image_node env n ts with
                   failures := (build_image_node env n ts).failures ++ [n] } := by
      intro n ts
      simp only [travNode, travList]
    have hnode : ∀ n ts ts', travNode env (f + 1) n ts = some ts' →
        ∀ m, Attempted env [n] m → (attrLookup ts' m).isSome := by
      intro n ts ts' h m hm
      rw [heqN n ts] at h
      by_cases hs : (env.builds n).succeed = true
      · rw [if_pos hs] at h
        rcases attempted_single_split env n m hm with h1 | h1
        · subst h1
          refine ((trav_master env f).2 (successors env m) _ ts' h).1 m ?_
          rw [bin_attr_self]
          rfl
        · exact ihlist (successors env n) _ ts' h m h1
      · rw [if_neg hs] at h
        have hts' : ts' = { build_image_node env n ts with
            failures := (build_image_node env n ts).failures ++ [n] } :=
          (Option.some_inj.mp h).symm
        subst hts'
        rcases attempted_single_succeed env n m hm with h1 | h1
        · subst h1
          rw [attrLookup_setFailures, bin_attr_self]
          rfl
        · exact absurd h1 hs
    constructor
    · exact hnode
    · intro l
      induction l with
      | nil =>
        intro ts ts' h m hm
        exact (attempted_nil env m hm).elim
      | cons n rest ihl =>
        intro ts ts' h m hm
        have heqL : travList env (f + 1) (n :: rest) ts
            = match travNode env (f + 1) n ts with
              | none => none
              | some t => travList env (f + 1) rest t := by
          simp only [travList, travListWith]
        rw [heqL] at h
        cases hn : travNode env (f + 1) n ts with
        | none =>
          rw [hn] at h
          exact absurd h (by simp)
        | some ts1 =>
          rw [hn] at h
          rcases attempted_cons env n rest m hm with h1 | h1
          · exact ((trav_master env (f + 1)).2 rest ts1 ts' h).1 m (hnode n ts ts1 hn m h1)
          · exact ihl ts1 ts' h m h1

/-- C4: once the construction phase has produced the environment, a run of
the build traversal over the roots (successful in the sense that the
modelled recursion had enough fuel) has these properties.  Every recorded
vertex carries exactly the outcome of its own build, with the captured
error message; a vertex is recorded exactly when it is attempted (a root,
or a child of a successfully built attempted vertex), so a failure does not
raise out of the traversal and sibling subtrees still run; the failures
list holds exactly the attempted vertices whose build failed, so a failed
vertex's descendants, unreachable except through it, stay unrecorded; and
the driver raises the single aggregate error built from the failures list
when it is non-empty and returns the recorded state without an exception
otherwise. -/
theorem c4_build_failure_handling (env : BuildEnv) (fuel : Nat) (roots : List Node)
    (ts : TState)
    (h : travList env fuel roots { attr := [], failures := [] } = some ts) :
    (∀ m a, attrLookup ts m = some a →
      a.build_succeed = (env.builds m).succeed
      ∧ a.build_err_msg = (env.builds m).err_msg)
    ∧ (∀ m, (attrLookup ts m).isSome ↔ Attempted env roots m)
    ∧ (∀ m, m ∈ ts.failures ↔ (Attempted env roots m ∧ (env.builds m).succeed = false))
    ∧ (∀ p c, (env.builds p).succeed = false → (p, c) ∈ env.edges → c ∉ roots →
        (∀ q, (q, c) ∈ env.edges → q = p) → attrLookup ts c = none)
    ∧ (ts.failures = [] → build_images env fuel roots = some (Except.ok ts))
    ∧ (∀ msg, ts.failures ≠ [] → build_error_msg env ts = some msg →
        build_images env fuel roots = some (Except.error (DriverErr.builderError msg)))
    ∧ (build_images env fuel roots = some (Except.ok ts) ↔
        ∀ m, ¬(Attempted env roots m ∧ (env.builds m).succeed = false)) := by
  obtain ⟨M1, M2, M3, M4, M5⟩ := (trav_master env fuel).2 roots _ ts h
  have hinit : ∀ m, attrLookup { attr := [], failures := [] } m = none := fun m => rfl
  have hFinal : ∀ m, m ∈ ts.failures ↔
      ((attrLookup ts m).isSome ∧ (env.builds m).succeed = false) := by
    refine M5 ?_
    intro m
    simp [hinit m]
  have hattr : ∀ m, (attrLookup ts m).isSome ↔ Attempted env roots m := by
    intro m
    constructor
    · intro hm
      rcases M4 m hm with h1 | h1
      · rw [hinit m] at h1
        exact absurd h1 (by simp)
      · exact h1
    · intro hm
      exact (trav_complete env fuel).2 roots _ ts h m hm
  have hfail : ∀ m, m ∈ ts.failures ↔
      (Attempted env roots m ∧ (env.builds m).succeed = false) := by
    intro m
    rw [hFinal m, hattr m]
  have hBI : build_images env fuel roots
      = (if ts.failures.isEmpty then some (Except.ok ts)
         else match build_error_msg env ts with
              | some msg => some (Except.error (DriverErr.builderError msg))
              | none => some (Except.error DriverErr.renderError)) := by
    unfold build_images
    rw [h]
  refine ⟨?_, hattr, hfail, ?_, ?_, ?_, ?_⟩
  · intro m a ha
    rcases M3 m a ha with h1 | h1
    · rw [hinit m] at h1
      exact absurd h1 (by simp)
    · rw [h1]
      exact recordOf_fields env m
  · intro p c hfp hedge hcroots huniq
    have hnatt : ¬Attempted env roots c := by
      intro hc
      cases hc with
      | root _ hr => exact hcroots hr
      | step q _ hq hsq heq =>
        rw [huniq q heq] at hsq
        rw [hfp] at hsq
        exact absurd hsq (by simp)
    have := (hattr c).not.mpr hnatt  -- careful: ¬isSome
    cases hc : attrLookup ts c with
    | none => rfl
    | some a =>
      exact absurd (by rw [hc]; rfl) this
  · intro hemp
    rw [hBI, if_pos (by rw [hemp]; rfl)]
  · intro msg hne hmsg
    rw [hBI, if_neg (by simpa [List.isEmpty_iff] using hne), hmsg]
  · constructor
    · intro hok
      intro m hm
      have hmem : m ∈ ts.failures := (hfail m).mpr hm
      by_cases hemp : ts.failures.isEmpty = true
      · rw [List.isEmpty_iff] at hemp
        rw [hemp] at hmem
        exact absurd hmem (by simp)
      · rw [hBI, if_neg hemp] at hok
        cases hmsgs : build_error_msg env ts with
        | some msg => rw [hmsgs] at hok; exact absurd hok (by simp)
        | none => rw [hmsgs] at hok; exact absurd hok (by simp)
    · intro hall
      have hemp : ts.failures = [] := by
        rw [List.eq_nil_iff_forall_not_mem]
        intro m hm
        exact hall m ((hfail m).mp hm)
      rw [hBI, if_pos (by rw [hemp]; rfl)]

/-- C4 witness: the two-root environment envW, where the traversal records
the failing root with its message, skips its child, builds the healthy
subtree, and the driver raises the aggregate error. -/
theorem c4_build_failure_handling_witness :
    travList envW 3 [{ git_url := "gh/d/r1", branch := "b" },
      { git_url := "gh/d/r2", branch := "b" }] { attr := [], failures := [] } = some tsW
    ∧ ((∀ m a, attrLookup tsW m = some a →
        a.build_succeed = (envW.builds m).succeed
        ∧ a.build_err_msg = (envW.builds m).err_msg)
      ∧ (∀ m, (attrLookup tsW m).isSome ↔ Attempted envW
          [{ git_url := "gh/d/r1", branch := "b" }, { git_url := "gh/d/r2", branch := "b" }] m)
      ∧ (∀ m, m ∈ tsW.failures ↔ (Attempted envW
          [{ git_url := "gh/d/r1", branch := "b" }, { git_url := "gh/d/r2", branch := "b" }] m
          ∧ (envW.builds m).succeed = false))
      ∧ (∀ p c, (envW.builds p).succeed = false → (p, c) ∈ envW.edges →
          c ∉ [{ git_url := "gh/d/r1", branch := "b" }, { git_url := "gh/d/r2", branch := "b" }] →
          (∀ q, (q, c) ∈ envW.edges → q = p) → attrLookup tsW c = none)
      ∧ (tsW.failures = [] → build_images envW 3
          [{ git_url := "gh/d/r1", branch := "b" }, { git_url := "gh/d/r2", branch := "b" }]
          = some (Except.ok tsW))
      ∧ (∀ msg, tsW.failures ≠ [] → build_error_msg envW tsW = some msg →
          build_images envW 3
            [{ git_url := "gh/d/r1", branch := "b" }, { git_url := "gh/d/r2", branch := "b" }]
          = some (Except.error (DriverErr.builderError msg)))
      ∧ (build_images envW 3
           [{ git_url := "gh/d/r1", branch := "b" }, { git_url := "gh/d/r2", branch := "b" }]
           = some (Except.ok tsW) ↔
          ∀ m, ¬(Attempted envW
            [{ git_url := "gh/d/r1", branch := "b" }, { git_url := "gh/d/r2", branch := "b" }] m
            ∧ (envW.builds m).succeed = false))) :=
  ⟨by rfl,
   c4_build_failure_handling envW 3
     [{ git_url := "gh/d/r1", branch := "b" }, { git_url := "gh/d/r2", branch := "b" }]
     tsW (by rfl)⟩

end Dsutil
